import Mathlib

/-!
# fontconverter: bit-packing codec, atlas builder and atlas renderer

A shallow embedding of `src/fontconvert.cpp`.  Byte vectors (`std::vector<uint8_t>`)
are lists of naturals; every store into a `uint8_t` is written with an explicit
`% 256`.  C `int` values that only hold small pixel coordinates and code points are
unbounded integers.
-/

namespace FontConvert

/-! ## BitEncoder / BitDecoder -/

/-- The constant `Mask = (1 << Size) - 1` of both codec classes, stored in a `uint8_t`. -/
def Mask (Size : Nat) : Nat := ((1 <<< Size) - 1) % 256

/-- State of `BitEncoder<Size>`: the output vector `_data` it appends to, the pending
byte `_buf` and the bit cursor `_shift`. -/
structure BitEncoder where
  data : List Nat
  buf : Nat
  shift : Nat
deriving DecidableEq

/-- The constructor `BitEncoder(std::vector<uint8_t> &data)`: `_buf = 0`, `_shift = 0`. -/
def BitEncoder.new (data : List Nat) : BitEncoder :=
  { data := data, buf := 0, shift := 0 }

/-- `BitEncoder<Size>::encode(uint8_t value)`.  The argument is converted to `uint8_t`
at the call, `_buf |= value << _shift` is computed in `int` and stored back into the
8-bit `_buf`.  (The `int` shift is exact for every cursor below 8, which is all an
encoder ever holds between calls.) -/
def BitEncoder.encode (Size : Nat) (e : BitEncoder) (value : Nat) : BitEncoder :=
  let value := (value % 256) &&& Mask Size
  let buf := (e.buf ||| (value <<< e.shift)) % 256
  let shift := e.shift + Size
  if shift ≥ 8 then
    { data := e.data ++ [buf], buf := 0, shift := 0 }
  else
    { data := e.data, buf := buf, shift := shift }

/-- `BitEncoder<Size>::commit()`. -/
def BitEncoder.commit (e : BitEncoder) : BitEncoder :=
  { data := if e.shift ≠ 0 then e.data ++ [e.buf] else e.data, buf := 0, shift := 0 }

/-- A run of `encode` calls, one per element of `xs`, in order. -/
def BitEncoder.encodeAll (Size : Nat) (e : BitEncoder) (xs : List Nat) : BitEncoder :=
  xs.foldl (BitEncoder.encode Size) e

/-- State of `BitDecoder<Size>`: `pos` is the index, in the vector the decoder was
constructed over, of the byte `_data` points to; `shift` is `_shift`. -/
structure BitDecoder where
  pos : Nat
  shift : Nat
deriving DecidableEq

/-- The constructor `BitDecoder(uint8_t *data)` for `data = &mem[pos]`. -/
def BitDecoder.new (pos : Nat) : BitDecoder :=
  { pos := pos, shift := 0 }

/-- `BitDecoder<Size>::decode()` over the vector `mem`.  The dereference `*_data` is
defined only inside the vector; outside it the result is `none`. -/
def BitDecoder.decode (Size : Nat) (mem : List Nat) (s : BitDecoder) :
    Option (Nat × BitDecoder) :=
  match mem[s.pos]? with
  | none => none
  | some byte =>
    let value := ((byte >>> s.shift) &&& Mask Size) % 256
    let shift := s.shift + Size
    if shift ≥ 8 then
      some (value, { pos := s.pos + 1, shift := 0 })
    else
      some (value, { pos := s.pos, shift := shift })

/-- `n` successive `decode()` calls; the values returned, in order, and the final state. -/
def BitDecoder.decodeN (Size : Nat) (mem : List Nat) :
    Nat → BitDecoder → Option (List Nat × BitDecoder)
  | 0, s => some ([], s)
  | n + 1, s =>
    match BitDecoder.decode Size mem s with
    | none => none
    | some (v, s1) =>
      match BitDecoder.decodeN Size mem n s1 with
      | none => none
      | some (vs, s2) => some (v :: vs, s2)

/-- Number of bytes needed for `P` samples of `d` bits: `ceil(P * d / 8)`. -/
def packedLen (d P : Nat) : Nat := (P * d + 7) / 8

/-- The supported sample depths. -/
def ValidDepth (d : Nat) : Prop := d = 1 ∨ d = 2 ∨ d = 4 ∨ d = 8

instance (d : Nat) : Decidable (ValidDepth d) := by
  unfold ValidDepth; infer_instance

/-! ## Rasterizer interface and glyph records -/

/-- The fields of FreeType's `FT_Bitmap` that the converter reads.  `buffer` is the
memory `bitmap.buffer` points to, addressed by the signed element index the code
computes (`pitch` is an `int` and may be negative); the pointer carries no length. -/
structure FT_Bitmap where
  rows : Nat
  width : Nat
  pitch : Int
  buffer : Int → Nat

/-- The `unsigned char` read `bitmap.buffer[i]`. -/
def FT_Bitmap.byteAt (bitmap : FT_Bitmap) (i : Int) : Nat := bitmap.buffer i % 256

/-- What FreeType holds for one code point once `FT_Load_Char`, `FT_Render_Glyph` and
`FT_Get_Glyph` have all succeeded: `face->glyph->bitmap`, `face->glyph->advance.x`
(26.6 fixed point), and `left` and `top` of the `FT_BitmapGlyphRec`. -/
structure FT_Glyph where
  bitmap : FT_Bitmap
  advance_x : Int
  left : Int
  top : Int

/-- The FreeType calls of `operator()`.  `init_error` and `face_error` are the values
returned by `FT_Init_FreeType` and `FT_New_Face` (0 is success).  `rasterize mono i` is
the outcome of the three per-glyph calls for code point `i`, `none` when any of them
returns an error; `mono` is the flag `_bpp == 1` that selects the load target and
render mode.  `metrics_height` is `face->size->metrics.height`. -/
structure FreeType where
  init_error : Int
  face_error : Int
  rasterize : Bool → Int → Option FT_Glyph
  metrics_height : Int

/-- Modelled from the spec: the glyph record `BitmapFontGlyph`, declared in
`BitmapFont.h`, which is not among the sources.  Section 3 of the spec gives its fields
as `offset, width, height : uint` and `xAdvance, xOffset, yOffset : int` and states no
field width, so none is imposed here. -/
structure BitmapFontGlyph where
  offset : Nat
  width : Nat
  height : Nat
  xAdvance : Int
  xOffset : Int
  yOffset : Int
deriving DecidableEq

/-! ## Converter -/

/-- The members of `Converter` that conversion and rendering use: `_bpp`, `_first`,
`_last`, `_bitmap`, `_glyphs` and the 8-bit `_yAdvance`.  (`main` admits only the
values 1, 2, 4 and 8 for `_bpp`.) -/
structure Converter where
  bpp : Nat
  first : Int
  last : Int
  bitmap : List Nat
  glyphs : List BitmapFontGlyph
  yAdvance : Nat
deriving DecidableEq

/-- `Converter::convertBitmap<N>(bitmap, dst)`; the result is `dst` after the call.
The two nested `for` loops run `y` over `0 .. rows-1` and `x` over `0 .. width-1`. -/
def Converter.convertBitmap (N : Nat) (bitmap : FT_Bitmap) (dst : List Nat) : List Nat :=
  if N = 1 then
    let encoder := BitEncoder.new dst
    let encoder := (List.range bitmap.rows).foldl (fun (enc : BitEncoder) (y : Nat) =>
      (List.range bitmap.width).foldl (fun (enc : BitEncoder) (x : Nat) =>
        let byte : Nat := x / 8
        let bit : Nat := 0x80 >>> (x &&& 7)
        let pixel : Bool := (bitmap.byteAt ((y : Int) * bitmap.pitch + (byte : Int)) &&& bit) != 0
        enc.encode 1 (if pixel then 1 else 0)) enc) encoder
    encoder.commit.data
  else
    let encoder := BitEncoder.new dst
    let encoder := (List.range bitmap.rows).foldl (fun (enc : BitEncoder) (y : Nat) =>
      (List.range bitmap.width).foldl (fun (enc : BitEncoder) (x : Nat) =>
        let pixel : Nat := bitmap.byteAt ((y : Int) * bitmap.pitch + (x : Int))
        enc.encode N (pixel >>> (8 - N))) enc) encoder
    encoder.commit.data

/-- The part of the loop body of `operator()` that follows a successful rasterisation:
the record is appended to `_glyphs`, then `switch (_bpp)` converts the bitmap (the
switch has no default, so another `_bpp` leaves `_bitmap` as it is). -/
def Converter.emit (c : Converter) (r : FT_Glyph) : Converter :=
  let bfGlyph : BitmapFontGlyph :=
    { offset := c.bitmap.length
      width := r.bitmap.width
      height := r.bitmap.rows
      xAdvance := r.advance_x >>> 6
      xOffset := r.left
      yOffset := 1 - r.top }
  let glyphs := c.glyphs ++ [bfGlyph]
  let bitmap :=
    if c.bpp = 1 then Converter.convertBitmap 1 r.bitmap c.bitmap
    else if c.bpp = 2 then Converter.convertBitmap 2 r.bitmap c.bitmap
    else if c.bpp = 4 then Converter.convertBitmap 4 r.bitmap c.bitmap
    else if c.bpp = 8 then Converter.convertBitmap 8 r.bitmap c.bitmap
    else c.bitmap
  { c with bitmap := bitmap, glyphs := glyphs }

/-- One iteration of the `for` loop of `operator()` for code point `i`: a failed
FreeType call is a `continue`. -/
def Converter.step (ft : FreeType) (c : Converter) (i : Int) : Converter :=
  match ft.rasterize (c.bpp == 1) i with
  | none => c
  | some r => c.emit r

/-- The values `i` takes in `for (int i = _first; i <= _last; ++i)`, in order.  The
counter is an unbounded integer: `++i` is taken not to overflow, that is `_last` is
below the largest `int`. -/
def codePoints (first last : Int) : List Int :=
  (List.range (last + 1 - first).toNat).map (fun (k : Nat) => first + (k : Int))

/-- The `for` loop of `operator()`. -/
def Converter.convertRange (ft : FreeType) (c : Converter) : Converter :=
  (codePoints c.first c.last).foldl (Converter.step ft) c

/-- `Converter::operator()()`. -/
def Converter.operator (ft : FreeType) (c : Converter) : Converter :=
  if ft.init_error ≠ 0 then c
  else if ft.face_error ≠ 0 then c
  else
    let c := c.convertRange ft
    { c with yAdvance := ((ft.metrics_height >>> 6) % 256).toNat }

/-- Conversion of a sequence of rasterised glyphs, in order, into the shared vector. -/
def Converter.convertGlyphs (c : Converter) (rs : List FT_Glyph) : Converter :=
  rs.foldl Converter.emit c

/-! ## Renderer -/

/-- One store `image[dy * width + dx] = pixel` of `renderGlyph`. -/
structure Store where
  dx : Int
  dy : Int
  index : Int
  pixel : Nat
deriving DecidableEq

/-- The local `scale = 255 / ((1 << N) - 1)` of `renderGlyph<N>`. -/
def scale (N : Nat) : Nat := 255 / ((1 <<< N) - 1)

/-- `Converter::renderGlyph<N>(g, x, y, image, width, height)` as the sequence of stores
it makes into `image`, in order; `none` when a `decode()` reads outside `_bitmap`. -/
def Converter.renderGlyph (N : Nat) (bitmap : List Nat) (g : BitmapFontGlyph)
    (x y width : Int) : Option (List Store) :=
  let decoder := BitDecoder.new g.offset
  let r := (List.range g.height).foldlM (fun (st : BitDecoder × List Store) (sy : Nat) =>
    (List.range g.width).foldlM (fun (st : BitDecoder × List Store) (sx : Nat) =>
      match BitDecoder.decode N bitmap st.1 with
      | none => none
      | some (v, dec) =>
        let pixel := (v * scale N) % 256
        let dx : Int := x + (sx : Int) + g.xOffset
        let dy : Int := y + (sy : Int) + g.yOffset
        let store : Store := { dx := dx, dy := dy, index := dy * width + dx, pixel := pixel }
        some (dec, st.2 ++ [store]))
      st) (decoder, [])
  r.map Prod.snd

/-- What `renderFont` computes: the size `width * height` of the zero-filled image it
asks for, the vertical origin `y`, whether the image is allocated, and the stores its
second loop makes into the image, in order (`none` when the allocation throws or a
`decode()` reads outside `_bitmap`). -/
structure Rendering where
  width : Int
  height : Int
  y : Int
  allocated : Bool
  stores : Option (List Store)
deriving DecidableEq

/-- The `switch (_bpp)` of the second loop of `renderFont`, which has no default: the
stores of `renderGlyph<_bpp>` for `_bpp` in 1, 2, 4, 8 and no store otherwise. -/
def Converter.drawGlyph (c : Converter) (g : BitmapFontGlyph) (x y width : Int) :
    Option (List Store) :=
  if c.bpp = 1 then Converter.renderGlyph 1 c.bitmap g x y width
  else if c.bpp = 2 then Converter.renderGlyph 2 c.bitmap g x y width
  else if c.bpp = 4 then Converter.renderGlyph 4 c.bitmap g x y width
  else if c.bpp = 8 then Converter.renderGlyph 8 c.bitmap g x y width
  else some []

/-- The second `for` loop of `renderFont`: each glyph is rendered at `(x, y)` and `x`
advances by its `xAdvance`. -/
def Converter.drawFont (c : Converter) (y width : Int) : Option (List Store) :=
  (c.glyphs.foldlM (fun (st : Int × List Store) (g : BitmapFontGlyph) =>
    match c.drawGlyph g st.1 y width with
    | none => none
    | some ss => some (st.1 + g.xAdvance, st.2 ++ ss)) (0, [])).map Prod.snd

/-- `Converter::renderFont`: the first loop sums `xAdvance` and takes the minimum
`yOffset` starting from 0; then `std::vector<uint8_t> image(width * height, 0)` is
constructed, and for a negative product, which converted to `size_t` exceeds
`max_size()`, the constructor throws `std::length_error`, so that the second loop does
not run and no store is made; otherwise the second loop draws the glyphs.  (Running out
of memory for a large non-negative product is left out.) -/
def Converter.renderFont (c : Converter) : Rendering :=
  let wm := c.glyphs.foldl
    (fun (wm : Int × Int) (g : BitmapFontGlyph) => (wm.1 + g.xAdvance, min wm.2 g.yOffset)) (0, 0)
  let width := wm.1
  let height : Int := c.yAdvance
  let minYOffset := wm.2
  let allocated : Bool := decide (0 ≤ width * height)
  let y := -minYOffset
  { width := width, height := height, y := y, allocated := allocated,
    stores := if allocated then c.drawFont y width else none }

/-! ## Samples of a bitmap, as the specification words them -/

/-- The sample of depth `d` at column `x`, row `y` of a bitmap: for depth 1 the bit
`0x80 >> (x mod 8)` of byte `x / 8` of the row, otherwise the byte at `x` of the row
shifted right by `8 - d`; rows are `pitch` bytes apart. -/
def sampleAt (d : Nat) (bm : FT_Bitmap) (x y : Nat) : Nat :=
  if d = 1 then
    if (bm.byteAt ((y : Int) * bm.pitch + ((x / 8 : Nat) : Int))).testBit (7 - x % 8) then 1 else 0
  else
    bm.byteAt ((y : Int) * bm.pitch + (x : Int)) / 2 ^ (8 - d)

/-- The `rows * width` samples of a bitmap in row-major order. -/
def samples (d : Nat) (bm : FT_Bitmap) : List Nat :=
  (List.range (bm.rows * bm.width)).map (fun i => sampleAt d bm (i % bm.width) (i / bm.width))

/-- The buffer index `convertBitmap<d>` reads for the pixel at column `x`, row `y`. -/
def readIndex (d : Nat) (bm : FT_Bitmap) (x y : Nat) : Int :=
  if d = 1 then (y : Int) * bm.pitch + ((x / 8 : Nat) : Int) else (y : Int) * bm.pitch + (x : Int)

/-! ## Arithmetic reading of a sample sequence -/

/-- The number whose base-`2^d` digits, least significant first, are the samples
masked to `d` bits. -/
def bitsVal (d : Nat) : List Nat → Nat
  | [] => 0
  | x :: xs => x % 2 ^ d + 2 ^ d * bitsVal d xs

/-- How the state of an encoder that started fresh over `dst` relates to the samples
`ys` it has been fed: `out` is what it has appended so far. -/
def EncInv (d : Nat) (dst ys : List Nat) (e : BitEncoder) : Prop :=
  ∃ out : List Nat, e.data = dst ++ out ∧ 8 * out.length + e.shift = d * ys.length ∧
    e.shift < 8 ∧ e.buf < 2 ^ e.shift ∧ (∀ b ∈ out, b < 256) ∧
    bitsVal 8 out + 2 ^ (8 * out.length) * e.buf = bitsVal d ys

/-- The bytes a fresh encoder over an empty vector appends for `xs`, `commit` included. -/
def packed (d : Nat) (xs : List Nat) : List Nat :=
  ((BitEncoder.encodeAll d (BitEncoder.new []) xs).commit).data

/-- The encoder state with `dst` put in front of its output vector. -/
def BitEncoder.onto (dst : List Nat) (e : BitEncoder) : BitEncoder :=
  { data := dst ++ e.data, buf := e.buf, shift := e.shift }

/-- The packed form of the samples `xs` sits in `mem` from byte `off` on. -/
def StoredAt (d : Nat) (mem : List Nat) (off : Nat) (xs : List Nat) : Prop :=
  ∀ j, j < packedLen d xs.length → mem[off + j]? = (packed d xs)[j]?

/-- Bytes the record `g` claims in the bitstream at depth `d`:
`ceil(width * height * d / 8)`. -/
def glyphBytes (d : Nat) (g : BitmapFontGlyph) : Nat := packedLen d (g.width * g.height)

/-- The offsets of the records `gs` are the running sums of the packed lengths of the
records before them, and `len` is the sum over all of them. -/
def WellLaid (d : Nat) (gs : List BitmapFontGlyph) (len : Nat) : Prop :=
  len = (gs.map (glyphBytes d)).sum ∧
    ∀ i g, gs[i]? = some g → g.offset = ((gs.take i).map (glyphBytes d)).sum

/-! ## Reading of the renderer's loops -/

/-- The value the `i`-th `decode()` (counting from 0) of a `BitDecoder<d>` constructed at
byte `off` of `mem` computes from the byte it reads. -/
def peek (d : Nat) (mem : List Nat) (off i : Nat) : Nat :=
  (((mem.getD (off + i * d / 8) 0) >>> (i * d % 8)) &&& Mask d) % 256

/-- The store `renderGlyph<d>` makes for the `k`-th pixel of glyph `g` (row-major)
drawn at origin `(x, y)` on a canvas `width` wide. -/
def glyphStore (d : Nat) (mem : List Nat) (g : BitmapFontGlyph) (x y width : Int)
    (k : Nat) : Store :=
  { dx := x + ((k % g.width : Nat) : Int) + g.xOffset
    dy := y + ((k / g.width : Nat) : Int) + g.yOffset
    index := (y + ((k / g.width : Nat) : Int) + g.yOffset) * width
      + (x + ((k % g.width : Nat) : Int) + g.xOffset)
    pixel := (peek d mem g.offset k * scale d) % 256 }

/-- Every `decode()` that rendering the record `g` at depth `d` performs reads inside
a vector of `len` bytes. -/
def Readable (d len : Nat) (g : BitmapFontGlyph) : Prop :=
  g.width * g.height = 0 ∨ g.offset + packedLen d (g.width * g.height) ≤ len

/-- The stores of the second loop of `renderFont` for the records `gs`, the first of
them drawn at horizontal origin `x`. -/
def layoutStores (d : Nat) (mem : List Nat) (y width : Int) :
    Int → List BitmapFontGlyph → List Store
  | _, [] => []
  | x, g :: gs =>
    (List.range (g.height * g.width)).map (glyphStore d mem g x y width)
      ++ layoutStores d mem y width (x + g.xAdvance) gs

instance (d len : Nat) (g : BitmapFontGlyph) : Decidable (Readable d len g) := by
  unfold Readable; infer_instance

/-! ## Sample inputs -/

/-- A 1-row, 4-pixel gray bitmap with intensities 0, 85, 170, 255 and two bytes of row
padding. -/
def exampleGray : FT_Bitmap :=
  { rows := 1, width := 4, pitch := 6, buffer := fun i => (85 * i).toNat }

/-- The glyph the sample rasterizer returns for code point `i`: a 2-row bitmap `i - 62`
pixels wide. -/
def exampleGlyph (i : Int) : FT_Glyph :=
  { bitmap := { rows := 2, width := (i - 62).toNat, pitch := 8,
                buffer := fun k => (37 * k).toNat }
    advance_x := 64 * (i - 60) + 5
    left := 1
    top := 3 }

/-- A rasterizer that fails for code point 65 and succeeds for every other one. -/
def exampleFreeType : FreeType :=
  { init_error := 0
    face_error := 0
    rasterize := fun _ i => if i = 65 then none else some (exampleGlyph i)
    metrics_height := 12 * 64 }

/-- A fresh 2-bit converter for the code points 65 to 67. -/
def exampleConverter : Converter :=
  { bpp := 2, first := 65, last := 67, bitmap := [], glyphs := [], yAdvance := 0 }

/-- A 2-bit asset with three records whose `xAdvance` are 6, 7 and 5, and line height
12. -/
def exampleAtlas : Converter :=
  { bpp := 2, first := 65, last := 67, bitmap := [0xE4, 0x1B]
    glyphs :=
      [ { offset := 0, width := 2, height := 2, xAdvance := 6, xOffset := 0, yOffset := -1 },
        { offset := 1, width := 4, height := 1, xAdvance := 7, xOffset := 1, yOffset := 2 },
        { offset := 2, width := 0, height := 0, xAdvance := 5, xOffset := 0, yOffset := 0 } ]
    yAdvance := 12 }

/-! ## Further readings of the code used by the properties -/

/-- The preview pixel of a source intensity `p` at depth `N` (2, 4 or 8):
`convertBitmap<N>` passes `p >> (8 - N)` to `encode`, which masks it, and
`renderGlyph<N>` multiplies the decoded sample by `scale` and stores the product in a
`uint8_t`. -/
def previewValue (N p : Nat) : Nat :=
  ((((p >>> (8 - N)) % 256) &&& Mask N) * scale N) % 256

/-- The byte indices that `n` successive `decode()` calls dereference, in order; a
read outside the vector ends the list. -/
def BitDecoder.readsN (Size : Nat) (mem : List Nat) : Nat → BitDecoder → List Nat
  | 0, _ => []
  | n + 1, s =>
    s.pos :: (match BitDecoder.decode Size mem s with
      | none => []
      | some (_, s1) => BitDecoder.readsN Size mem n s1)

/-- A rasterizer like `exampleFreeType` whose line-height metric is 300 pixels. -/
def exampleTall : FreeType :=
  { exampleFreeType with metrics_height := 300 * 64 }

/-- A 2-bit asset with one 1-by-1 record whose `xOffset` is -1. -/
def exampleOverhang : Converter :=
  { bpp := 2, first := 106, last := 106, bitmap := [3]
    glyphs := [ { offset := 0, width := 1, height := 1, xAdvance := 2, xOffset := -1,
                  yOffset := 0 } ]
    yAdvance := 12 }

/-! ## main -/

/-- How `parser.ParseCLI(argc, argv)` ends: it throws `args::Help`, throws
`args::ParseError`, or returns. -/
inductive ParseOutcome where
  | help
  | parseError
  | parsed
deriving DecidableEq

/-- What the argument parser holds after `ParseCLI`: the outcome, the two positionals
(`none` when not given) and the four flag values. -/
structure CommandLine where
  outcome : ParseOutcome
  font : Option String
  name : Option String
  size : Int
  bpp : Int
  first : Int
  last : Int

/-- A file written by `main`: the header, written through `std::ofstream` from the text
`converter.header()` makes of the asset, or the preview image, handed to
`stbi_write_bmp` by `renderFont`. -/
inductive FileWrite where
  | header (path : String) (asset : Converter)
  | image (path : String) (rendering : Rendering)
deriving DecidableEq

/-- A run of `main`: the value it returns (`none` when an exception that nothing
catches ends the program) and the files it writes, in order. -/
structure Run where
  status : Option Int
  files : List FileWrite
deriving DecidableEq

/-- `main`.  `junk` is the value the member `_yAdvance`, which the constructor of
`Converter` does not initialise, happens to hold.  `operator()` returns nothing, so
what follows the call `converter()` does not depend on what it did.  The header is
written and closed before `renderFont` is called; when the image allocation of
`renderFont` throws, nothing catches the exception and no image is written. -/
def main (ft : FreeType) (cl : CommandLine) (junk : Nat) : Run :=
  match cl.outcome with
  | ParseOutcome.help => { status := some 0, files := [] }
  | ParseOutcome.parseError => { status := some 1, files := [] }
  | ParseOutcome.parsed =>
    match cl.font with
    | none => { status := some 1, files := [] }
    | some _ =>
      match cl.name with
      | none => { status := some 1, files := [] }
      | some name =>
        if ¬ (cl.bpp = 1 ∨ cl.bpp = 2 ∨ cl.bpp = 4 ∨ cl.bpp = 8) then
          { status := some 1, files := [] }
        else
          let converter : Converter :=
            { bpp := cl.bpp.toNat, first := cl.first, last := cl.last, bitmap := [],
              glyphs := [], yAdvance := junk }
          let converter := converter.operator ft
          if converter.renderFont.allocated then
            { status := some 0
              files := [FileWrite.header (name ++ ".h") converter,
                        FileWrite.image (name ++ ".bmp") converter.renderFont] }
          else
            { status := none
              files := [FileWrite.header (name ++ ".h") converter] }

/-- A FreeType whose `FT_Init_FreeType` fails with error 1. -/
def exampleNoFreeType : FreeType :=
  { exampleFreeType with init_error := 1 }

/-- A FreeType that initialises but whose `FT_New_Face` fails with error 1. -/
def exampleNoFace : FreeType :=
  { exampleFreeType with face_error := 1 }

/-- The command line `fontconvert -b 2 -f 65 -l 67 font.ttf myfont`. -/
def exampleCommandLine : CommandLine :=
  { outcome := ParseOutcome.parsed, font := some ("font.ttf"), name := some ("myfont"),
    size := 10, bpp := 2, first := 65, last := 67 }

/-- A 2-bit asset with one record without pixels whose `xAdvance` is -3, and line
height 12. -/
def exampleBackward : Converter :=
  { bpp := 2, first := 65, last := 65, bitmap := []
    glyphs := [ { offset := 0, width := 0, height := 0, xAdvance := -3, xOffset := 0,
                  yOffset := 0 } ]
    yAdvance := 12 }

/-! ## The encoder as a positional number -/

theorem Mask_eq {d : Nat} (hd : ValidDepth d) : Mask d = 2 ^ d - 1 := by
  rcases hd with h | h | h | h <;> subst h <;> decide

theorem and_Mask {d : Nat} (hd : ValidDepth d) (v : Nat) : (v % 256) &&& Mask d = v % 2 ^ d := by
  rw [Mask_eq hd, Nat.and_pow_two_sub_one_eq_mod]
  have h : 2 ^ d ∣ 256 := by
    rcases hd with h | h | h | h <;> subst h <;> decide
  exact Nat.mod_mod_of_dvd v h

theorem or_shiftLeft {b s : Nat} (hb : b < 2 ^ s) (v : Nat) :
    b ||| (v <<< s) = b + 2 ^ s * v := by
  rw [Nat.shiftLeft_eq, Nat.or_comm, Nat.mul_comm, ← Nat.mul_add_lt_is_or hb, Nat.add_comm]

theorem bitsVal_append (d : Nat) (ys zs : List Nat) :
    bitsVal d (ys ++ zs) = bitsVal d ys + 2 ^ (d * ys.length) * bitsVal d zs := by
  induction ys with
  | nil => simp [bitsVal]
  | cons y ys ih =>
    show y % 2 ^ d + 2 ^ d * bitsVal d (ys ++ zs)
      = (y % 2 ^ d + 2 ^ d * bitsVal d ys) + 2 ^ (d * (ys.length + 1)) * bitsVal d zs
    rw [ih, Nat.mul_succ, Nat.pow_add]
    ring

theorem bitsVal_lt (d : Nat) (ys : List Nat) : bitsVal d ys < 2 ^ (d * ys.length) := by
  induction ys with
  | nil => simp [bitsVal]
  | cons y ys ih =>
    simp only [bitsVal, List.length_cons]
    rw [Nat.mul_succ, Nat.pow_add]
    have h1 : y % 2 ^ d < 2 ^ d := Nat.mod_lt _ (Nat.two_pow_pos d)
    have h2 : 2 ^ d * (bitsVal d ys + 1) ≤ 2 ^ d * 2 ^ (d * ys.length) :=
      Nat.mul_le_mul_left _ ih
    rw [Nat.mul_comm (2 ^ (d * ys.length))]
    rw [Nat.mul_add] at h2
    omega

theorem bitsVal_digit (d : Nat) (xs : List Nat) (i x : Nat) (h : xs[i]? = some x) :
    bitsVal d xs / 2 ^ (d * i) % 2 ^ d = x % 2 ^ d := by
  induction xs generalizing i with
  | nil => simp at h
  | cons y ys ih =>
    cases i with
    | zero =>
      simp only [List.getElem?_cons_zero, Option.some.injEq] at h
      subst h
      simp [bitsVal, Nat.add_mul_mod_self_left]
    | succ i =>
      simp only [List.getElem?_cons_succ] at h
      rw [Nat.mul_succ, Nat.add_comm (d * i) d, Nat.pow_add, ← Nat.div_div_eq_div_mul]
      have h1 : (y % 2 ^ d + 2 ^ d * bitsVal d ys) / 2 ^ d = bitsVal d ys := by
        rw [Nat.add_mul_div_left _ _ (Nat.two_pow_pos d),
          Nat.div_eq_of_lt (Nat.mod_lt _ (Nat.two_pow_pos d)), Nat.zero_add]
      simp only [bitsVal, h1]
      exact ih i h

theorem EncInv_new (d : Nat) (dst : List Nat) : EncInv d dst [] (BitEncoder.new dst) :=
  ⟨[], by simp [BitEncoder.new, bitsVal]⟩

theorem shift_add_le {d L s n : Nat} (hd : ValidDepth d) (h : 8 * L + s = d * n) (hs : s < 8) :
    s + d ≤ 8 := by
  rcases hd with h1 | h1 | h1 | h1 <;> subst h1 <;> omega

theorem pending_lt {b s x d : Nat} (hb : b < 2 ^ s) (hx : x < 2 ^ d) :
    b + 2 ^ s * x < 2 ^ (s + d) := by
  have h2 : 2 ^ s * (x + 1) ≤ 2 ^ s * 2 ^ d := Nat.mul_le_mul_left _ hx
  rw [Nat.pow_add]
  rw [Nat.mul_add] at h2
  omega

theorem EncInv_encode {d : Nat} (hd : ValidDepth d) {dst ys : List Nat} {e : BitEncoder}
    (h : EncInv d dst ys e) (x : Nat) : EncInv d dst (ys ++ [x]) (e.encode d x) := by
  obtain ⟨out, hdata, hlen, hs, hb, hbytes, hval⟩ := h
  have hsd : e.shift + d ≤ 8 := shift_add_le hd hlen hs
  have hx : x % 2 ^ d < 2 ^ d := Nat.mod_lt _ (Nat.two_pow_pos d)
  have hlt : e.buf + 2 ^ e.shift * (x % 2 ^ d) < 2 ^ (e.shift + d) := pending_lt hb hx
  have h28 : e.buf + 2 ^ e.shift * (x % 2 ^ d) < 2 ^ 8 :=
    lt_of_lt_of_le hlt (Nat.pow_le_pow_right (by norm_num) hsd)
  have h256 : e.buf + 2 ^ e.shift * (x % 2 ^ d) < 256 := by simpa using h28
  have hlen1 : d * (ys.length + 1) = d * ys.length + d := by ring
  have hbuf : (e.buf ||| ((x % 256 &&& Mask d) <<< e.shift)) % 256
      = e.buf + 2 ^ e.shift * (x % 2 ^ d) := by
    rw [and_Mask hd, or_shiftLeft hb, Nat.mod_eq_of_lt h256]
  have hnew : bitsVal d (ys ++ [x])
      = bitsVal d ys + 2 ^ (8 * out.length + e.shift) * (x % 2 ^ d) := by
    rw [bitsVal_append, hlen]; simp [bitsVal]
  unfold BitEncoder.encode
  simp only [hbuf]
  by_cases hflush : e.shift + d ≥ 8
  · rw [if_pos hflush]
    refine ⟨out ++ [e.buf + 2 ^ e.shift * (x % 2 ^ d)], by simp [hdata], ?_, by simp, by simp, ?_, ?_⟩
    · simp only [List.length_append, List.length_singleton]; omega
    · intro b hb'
      rcases List.mem_append.1 hb' with h1 | h1
      · exact hbytes b h1
      · simp only [List.mem_singleton] at h1; subst h1; exact h256
    · rw [hnew, bitsVal_append, ← hval]
      simp only [bitsVal, Nat.mod_eq_of_lt h28, Nat.pow_add]
      ring
  · rw [if_neg hflush]
    refine ⟨out, hdata, ?_, by simp only []; omega, by simpa using hlt, hbytes, ?_⟩
    · simp only [List.length_append, List.length_singleton]; omega
    · rw [hnew, ← hval]
      simp only [Nat.pow_add]
      ring

theorem EncInv_encodeAll {d : Nat} (hd : ValidDepth d) (dst xs : List Nat) :
    EncInv d dst xs (BitEncoder.encodeAll d (BitEncoder.new dst) xs) := by
  induction xs using List.reverseRecOn with
  | nil => exact EncInv_new d dst
  | append_singleton ys x ih =>
    unfold BitEncoder.encodeAll at ih ⊢
    rw [List.foldl_append]
    exact EncInv_encode hd ih x

theorem encode_onto (d : Nat) (dst : List Nat) (e : BitEncoder) (x : Nat) :
    (e.onto dst).encode d x = (e.encode d x).onto dst := by
  unfold BitEncoder.encode BitEncoder.onto
  by_cases h : e.shift + d ≥ 8
  · simp [h]
  · simp [h]

theorem encodeAll_onto (d : Nat) (dst : List Nat) (e : BitEncoder) (xs : List Nat) :
    BitEncoder.encodeAll d (e.onto dst) xs = (BitEncoder.encodeAll d e xs).onto dst := by
  induction xs generalizing e with
  | nil => rfl
  | cons x xs ih =>
    simp only [BitEncoder.encodeAll, List.foldl_cons] at ih ⊢
    rw [encode_onto, ih]

theorem commit_onto (dst : List Nat) (e : BitEncoder) :
    (e.onto dst).commit = e.commit.onto dst := by
  unfold BitEncoder.commit BitEncoder.onto
  by_cases h : e.shift = 0
  · simp [h]
  · simp [h]

theorem encode_commit_data (d : Nat) (dst xs : List Nat) :
    ((BitEncoder.encodeAll d (BitEncoder.new dst) xs).commit).data = dst ++ packed d xs := by
  have h : BitEncoder.new dst = (BitEncoder.new []).onto dst := by
    simp [BitEncoder.new, BitEncoder.onto]
  rw [h, encodeAll_onto, commit_onto]
  rfl

theorem packed_spec {d : Nat} (hd : ValidDepth d) (xs : List Nat) :
    (packed d xs).length = packedLen d xs.length ∧ (∀ b ∈ packed d xs, b < 256) ∧
      bitsVal 8 (packed d xs) = bitsVal d xs := by
  obtain ⟨out, hdata, hlen, hs, hb, hbytes, hval⟩ := EncInv_encodeAll hd [] xs
  simp only [List.nil_append] at hdata
  unfold packed BitEncoder.commit
  simp only [hdata]
  by_cases h0 : (BitEncoder.encodeAll d (BitEncoder.new []) xs).shift = 0
  · rw [h0] at hlen hb
    have hb0 : (BitEncoder.encodeAll d (BitEncoder.new []) xs).buf = 0 := by simpa using hb
    rw [hb0] at hval
    simp only [h0, ne_eq, not_true_eq_false, if_false]
    refine ⟨?_, hbytes, by simpa using hval⟩
    unfold packedLen
    rw [Nat.mul_comm, ← hlen]; omega
  · simp only [ne_eq, h0, not_false_eq_true, if_true]
    have hb8 : (BitEncoder.encodeAll d (BitEncoder.new []) xs).buf < 2 ^ 8 :=
      lt_of_lt_of_le hb (Nat.pow_le_pow_right (by norm_num) (le_of_lt hs))
    refine ⟨?_, ?_, ?_⟩
    · simp only [List.length_append, List.length_singleton]
      unfold packedLen
      rw [Nat.mul_comm, ← hlen]; omega
    · intro b hb'
      rcases List.mem_append.1 hb' with h1 | h1
      · exact hbytes b h1
      · simp only [List.mem_singleton] at h1; subst h1; simpa using hb8
    · rw [bitsVal_append, ← hval]
      simp only [bitsVal, Nat.mod_eq_of_lt hb8]
      ring

theorem packed_getElem {d : Nat} (hd : ValidDepth d) (xs : List Nat) (j : Nat)
    (hj : j < packedLen d xs.length) :
    (packed d xs)[j]? = some (bitsVal d xs / 2 ^ (8 * j) % 256) := by
  obtain ⟨hlen, hbytes, hval⟩ := packed_spec hd xs
  have hj2 : j < (packed d xs).length := by rw [hlen]; exact hj
  rw [List.getElem?_eq_getElem hj2]
  have h1 := bitsVal_digit 8 (packed d xs) j _ (List.getElem?_eq_getElem hj2)
  have h2 : (packed d xs)[j] < 256 := hbytes _ (List.getElem_mem hj2)
  rw [hval] at h1
  have h3 : (packed d xs)[j] % 2 ^ 8 = (packed d xs)[j] := Nat.mod_eq_of_lt (by simpa using h2)
  rw [h3] at h1
  rw [← h1]
  norm_num

theorem and_Mask_eq_mod {d : Nat} (hd : ValidDepth d) (v : Nat) : v &&& Mask d = v % 2 ^ d := by
  rw [Mask_eq hd, Nat.and_pow_two_sub_one_eq_mod]

theorem byte_field (a s d : Nat) (h : s + d ≤ 8) :
    a % 2 ^ 8 / 2 ^ s % 2 ^ d = a / 2 ^ s % 2 ^ d := by
  have h8 : (2 : Nat) ^ 8 = 2 ^ s * 2 ^ (8 - s) := by
    rw [← Nat.pow_add]; congr 1; omega
  rw [h8, Nat.mod_mul_right_div_self]
  exact Nat.mod_mod_of_dvd _ (Nat.pow_dvd_pow 2 (by omega))

theorem decode_value {d : Nat} (hd : ValidDepth d) (V i : Nat) :
    (((V / 2 ^ (8 * (i * d / 8)) % 256) >>> (i * d % 8)) &&& Mask d) % 256
      = V / 2 ^ (d * i) % 2 ^ d := by
  have hsd : i * d % 8 + d ≤ 8 := by
    rcases hd with h | h | h | h <;> subst h <;> omega
  have h256 : (256 : Nat) = 2 ^ 8 := by norm_num
  have hlt : V / 2 ^ (d * i) % 2 ^ d < 256 := by
    have h1 : V / 2 ^ (d * i) % 2 ^ d < 2 ^ d := Nat.mod_lt _ (Nat.two_pow_pos d)
    have h2 : 2 ^ d ≤ 2 ^ 8 := Nat.pow_le_pow_right (by norm_num) (by omega)
    omega
  have hexp : 8 * (i * d / 8) + i * d % 8 = d * i := by
    rw [Nat.div_add_mod, Nat.mul_comm]
  rw [and_Mask_eq_mod hd, Nat.shiftRight_eq_div_pow, h256, byte_field _ _ _ hsd,
    Nat.div_div_eq_div_mul, ← Nat.pow_add, hexp, ← h256, Nat.mod_eq_of_lt hlt]

theorem decode_stored {d : Nat} (hd : ValidDepth d) {mem : List Nat} {off : Nat}
    {xs : List Nat} (h : StoredAt d mem off xs) (i x : Nat) (hx : xs[i]? = some x) :
    BitDecoder.decode d mem { pos := off + i * d / 8, shift := i * d % 8 }
      = some (x % 2 ^ d, { pos := off + (i + 1) * d / 8, shift := (i + 1) * d % 8 }) := by
  have hi : i < xs.length := by
    rcases Nat.lt_or_ge i xs.length with h1 | h1
    · exact h1
    · rw [List.getElem?_eq_none h1] at hx; cases hx
  have hp : i * d / 8 < packedLen d xs.length := by
    unfold packedLen
    rcases hd with h1 | h1 | h1 | h1 <;> subst h1 <;> omega
  have hb := h _ hp
  rw [packed_getElem hd xs _ hp] at hb
  unfold BitDecoder.decode
  simp only [hb, decode_value hd, bitsVal_digit d xs i x hx]
  rcases hd with h1 | h1 | h1 | h1 <;> subst h1 <;> split <;> simp <;> omega

theorem decodeN_stored {d : Nat} (hd : ValidDepth d) {mem : List Nat} {off : Nat}
    {xs : List Nat} (h : StoredAt d mem off xs) (k i : Nat) (hk : i + k = xs.length) :
    BitDecoder.decodeN d mem k { pos := off + i * d / 8, shift := i * d % 8 }
      = some ((xs.drop i).map (fun x => x % 2 ^ d),
          { pos := off + xs.length * d / 8, shift := xs.length * d % 8 }) := by
  induction k generalizing i with
  | zero =>
    have hi : i = xs.length := by omega
    subst hi
    simp [BitDecoder.decodeN]
  | succ k ih =>
    have hi : i < xs.length := by omega
    have hx : xs[i]? = some xs[i] := List.getElem?_eq_getElem hi
    have hdrop : List.drop i xs = xs[i] :: List.drop (i + 1) xs :=
      List.drop_eq_getElem_cons hi
    unfold BitDecoder.decodeN
    rw [decode_stored hd h i _ hx]
    simp only [ih (i + 1) (by omega)]
    rw [hdrop, List.map_cons]

theorem storedAt_append {d : Nat} (hd : ValidDepth d) (pre post xs : List Nat) :
    StoredAt d (pre ++ packed d xs ++ post) pre.length xs := by
  intro j hj
  have hlen := (packed_spec hd xs).1
  rw [List.append_assoc, List.getElem?_append_right (by omega)]
  simp only [Nat.add_sub_cancel_left]
  rw [List.getElem?_append_left (by omega)]

theorem bitsVal_drop (d : Nat) (xs : List Nat) (m : Nat) :
    bitsVal d xs / 2 ^ (d * m) = bitsVal d (xs.drop m) := by
  induction m generalizing xs with
  | zero => simp
  | succ m ih =>
    cases xs with
    | nil => simp [bitsVal]
    | cons y ys =>
      rw [Nat.mul_succ, Nat.add_comm (d * m) d, Nat.pow_add, ← Nat.div_div_eq_div_mul]
      have h1 : (y % 2 ^ d + 2 ^ d * bitsVal d ys) / 2 ^ d = bitsVal d ys := by
        rw [Nat.add_mul_div_left _ _ (Nat.two_pow_pos d),
          Nat.div_eq_of_lt (Nat.mod_lt _ (Nat.two_pow_pos d)), Nat.zero_add]
      simp only [bitsVal, h1, List.drop_succ_cons]
      exact ih ys

theorem bitsVal_mod_sum (d : Nat) (ys : List Nat) (k : Nat) :
    bitsVal d ys % 2 ^ (d * k)
      = ∑ i in Finset.range k, (ys.getD i 0 % 2 ^ d) * 2 ^ (i * d) := by
  induction k generalizing ys with
  | zero => simp [Nat.mod_one]
  | succ k ih =>
    rw [Finset.sum_range_succ']
    cases ys with
    | nil => simp [bitsVal]
    | cons y r =>
      rw [Nat.mul_succ, Nat.add_comm (d * k) d, Nat.pow_add, Nat.mod_mul]
      have h1 : (y % 2 ^ d + 2 ^ d * bitsVal d r) / 2 ^ d = bitsVal d r := by
        rw [Nat.add_mul_div_left _ _ (Nat.two_pow_pos d),
          Nat.div_eq_of_lt (Nat.mod_lt _ (Nat.two_pow_pos d)), Nat.zero_add]
      have h2 : (y % 2 ^ d + 2 ^ d * bitsVal d r) % 2 ^ d = y % 2 ^ d := by
        rw [Nat.add_mul_mod_self_left, Nat.mod_mod]
      simp only [bitsVal, h1, h2, ih r, List.getD_cons_succ, List.getD_cons_zero,
        Nat.zero_mul, Nat.pow_zero, Nat.mul_one]
      rw [Finset.mul_sum, Nat.add_comm]
      congr 1
      apply Finset.sum_congr rfl
      intro i _
      rw [Nat.succ_mul, Nat.pow_add]
      ring

theorem byte_layout_sum {d : Nat} (hd : ValidDepth d) (xs : List Nat) (j : Nat) :
    bitsVal d xs / 2 ^ (8 * j) % 256
      = ∑ i in Finset.range (8 / d), ((xs.getD (j * (8 / d) + i) 0 % 2 ^ d) <<< (i * d)) := by
  have hk : d * (8 / d) = 8 := by
    rcases hd with h | h | h | h <;> subst h <;> rfl
  have h1 : 8 * j = d * (j * (8 / d)) := by
    rw [← hk]; simp only [hk]; rw [Nat.mul_comm j, ← Nat.mul_assoc, hk]
  have h2 : (256 : Nat) = 2 ^ (d * (8 / d)) := by rw [hk]; norm_num
  rw [h1, bitsVal_drop, h2, bitsVal_mod_sum]
  apply Finset.sum_congr rfl
  intro i _
  rw [Nat.shiftLeft_eq]
  congr 2
  simp [List.getD_eq_getElem?_getD, List.getElem?_drop]

theorem encode_loops (N rows width : Nat) (f : Nat → Nat → Nat) (e : BitEncoder) :
    (List.range rows).foldl (fun enc y =>
        (List.range width).foldl (fun enc x => BitEncoder.encode N enc (f x y)) enc) e
      = BitEncoder.encodeAll N e
          ((List.range (rows * width)).map (fun i => f (i % width) (i / width))) := by
  induction rows with
  | zero => simp [BitEncoder.encodeAll]
  | succ rows ih =>
    rw [List.range_succ, List.foldl_append, ih, Nat.succ_mul, List.range_add, List.map_append]
    unfold BitEncoder.encodeAll
    rw [List.foldl_append, List.map_map]
    simp only [List.foldl_cons, List.foldl_nil]
    have hrow : List.map ((fun i => f (i % width) (i / width)) ∘ fun x => rows * width + x)
        (List.range width) = List.map (fun x => f x rows) (List.range width) := by
      apply List.map_congr_left
      intro x hx
      have hx2 : x < width := List.mem_range.1 hx
      have hw : 0 < width := by omega
      simp only [Function.comp]
      rw [Nat.mul_add_mod_of_lt hx2, Nat.mul_comm rows width, Nat.mul_add_div hw,
        Nat.div_eq_of_lt hx2, Nat.add_zero]
    rw [hrow]
    simp only [List.foldl_map]

theorem and_bit_ne_zero (b n : Nat) : (b &&& 2 ^ n != 0) = b.testBit n := by
  cases hbit : b.testBit n with
  | false =>
    have h0 : b &&& 2 ^ n = 0 := by
      apply Nat.eq_of_testBit_eq
      intro i
      rw [Nat.testBit_and, Nat.testBit_two_pow, Nat.zero_testBit]
      by_cases h : n = i
      · subst h; simp [hbit]
      · simp [h]
    simp [h0]
  | true =>
    have h1 : (b &&& 2 ^ n).testBit n = true := by
      rw [Nat.testBit_and, Nat.testBit_two_pow_self, hbit]; rfl
    have h2 : b &&& 2 ^ n ≠ 0 := by
      intro h; rw [h, Nat.zero_testBit] at h1; cases h1
    simpa using h2

theorem mono_mask (x : Nat) : 0x80 >>> (x &&& 7) = 2 ^ (7 - x % 8) := by
  have h7 : x &&& 7 = x % 8 := Nat.and_pow_two_sub_one_eq_mod x 3
  rw [h7, Nat.shiftRight_eq_div_pow]
  have h : (0x80 : Nat) = 2 ^ 7 := by norm_num
  rw [h, Nat.pow_div (by omega) (by norm_num)]

theorem convertBitmap_eq (d : Nat) (bm : FT_Bitmap) (dst : List Nat) :
    Converter.convertBitmap d bm dst
      = ((BitEncoder.encodeAll d (BitEncoder.new dst) (samples d bm)).commit).data := by
  unfold Converter.convertBitmap samples
  by_cases h1 : d = 1
  · subst h1
    simp only [if_true]
    rw [encode_loops 1 bm.rows bm.width
      (fun x y => if ((bm.byteAt (↑y * bm.pitch + ↑(x / 8)) &&& 0x80 >>> (x &&& 7)) != 0) = true
        then 1 else 0)]
    congr 3
    apply List.map_congr_left
    intro i _
    simp only [sampleAt, if_true, mono_mask, and_bit_ne_zero]
  · simp only [if_neg h1]
    rw [encode_loops d bm.rows bm.width (fun x y => bm.byteAt (↑y * bm.pitch + ↑x) >>> (8 - d))]
    congr 3
    apply List.map_congr_left
    intro i _
    simp only [sampleAt, if_neg h1, Nat.shiftRight_eq_div_pow]

theorem index_rowmajor {W H x y : Nat} (hx : x < W) (hy : y < H) :
    y * W + x < H * W ∧ (y * W + x) % W = x ∧ (y * W + x) / W = y := by
  have h1 : (y + 1) * W ≤ H * W := Nat.mul_le_mul_right W hy
  rw [Nat.succ_mul] at h1
  refine ⟨by omega, ?_, ?_⟩
  · rw [Nat.mul_add_mod_of_lt hx]
  · rw [Nat.mul_comm, Nat.mul_add_div (by omega), Nat.div_eq_of_lt hx, Nat.add_zero]

theorem samples_getElem (d : Nat) (bm : FT_Bitmap) (x y : Nat) (hx : x < bm.width)
    (hy : y < bm.rows) : (samples d bm)[y * bm.width + x]? = some (sampleAt d bm x y) := by
  obtain ⟨h1, h2, h3⟩ := index_rowmajor hx hy
  unfold samples
  rw [List.getElem?_map, List.getElem?_range h1]
  simp only [Option.map_some', h2, h3]

theorem byteAt_lt (bm : FT_Bitmap) (i : Int) : bm.byteAt i < 256 :=
  Nat.mod_lt _ (by norm_num)

theorem sampleAt_lt {d : Nat} (hd : ValidDepth d) (bm : FT_Bitmap) (x y : Nat) :
    sampleAt d bm x y < 2 ^ d := by
  unfold sampleAt
  by_cases h1 : d = 1
  · subst h1; simp only [if_true]; split <;> norm_num
  · simp only [if_neg h1]
    have hle : d ≤ 8 := by rcases hd with h | h | h | h <;> omega
    rw [Nat.div_lt_iff_lt_mul (Nat.two_pow_pos _), ← Nat.pow_add]
    have h8 : d + (8 - d) = 8 := by omega
    rw [h8]
    exact byteAt_lt bm _

theorem samples_congr (d : Nat) (bm bm' : FT_Bitmap) (hr : bm'.rows = bm.rows)
    (hw : bm'.width = bm.width) (hp : bm'.pitch = bm.pitch)
    (h : ∀ x y, x < bm.width → y < bm.rows →
      bm'.byteAt (readIndex d bm x y) = bm.byteAt (readIndex d bm x y)) :
    samples d bm' = samples d bm := by
  unfold samples
  rw [hr, hw]
  apply List.map_congr_left
  intro i hi
  have hi2 : i < bm.rows * bm.width := List.mem_range.1 hi
  have hW : 0 < bm.width := by
    rcases Nat.eq_zero_or_pos bm.width with h0 | h0
    · rw [h0] at hi2; omega
    · exact h0
  have hx : i % bm.width < bm.width := Nat.mod_lt _ hW
  have hy : i / bm.width < bm.rows := (Nat.div_lt_iff_lt_mul hW).2 hi2
  have hread := h _ _ hx hy
  unfold readIndex at hread
  unfold sampleAt
  by_cases h1 : d = 1
  · simp only [h1, if_true] at hread ⊢
    rw [hp, hread]
  · simp only [if_neg h1] at hread ⊢
    rw [hp, hread]

theorem emit_bpp (c : Converter) (r : FT_Glyph) : (c.emit r).bpp = c.bpp := rfl

theorem emit_glyphs (c : Converter) (r : FT_Glyph) :
    (c.emit r).glyphs = c.glyphs ++
      [{ offset := c.bitmap.length, width := r.bitmap.width, height := r.bitmap.rows,
         xAdvance := r.advance_x >>> 6, xOffset := r.left, yOffset := 1 - r.top }] := rfl

theorem emit_bitmap {d : Nat} (hd : ValidDepth d) (c : Converter) (hb : c.bpp = d)
    (r : FT_Glyph) : (c.emit r).bitmap = c.bitmap ++ packed d (samples d r.bitmap) := by
  unfold Converter.emit
  rcases hd with h | h | h | h <;> subst h <;>
    simp [hb, convertBitmap_eq, encode_commit_data]

theorem convertGlyphs_bpp (c : Converter) (rs : List FT_Glyph) :
    (c.convertGlyphs rs).bpp = c.bpp := by
  induction rs generalizing c with
  | nil => rfl
  | cons r rs ih =>
    simp only [Converter.convertGlyphs, List.foldl_cons] at ih ⊢
    rw [ih, emit_bpp]

theorem convertGlyphs_extends {d : Nat} (hd : ValidDepth d) (c : Converter) (hb : c.bpp = d)
    (rs : List FT_Glyph) :
    ∃ ext gext, (c.convertGlyphs rs).bitmap = c.bitmap ++ ext ∧
      (c.convertGlyphs rs).glyphs = c.glyphs ++ gext ∧ gext.length = rs.length := by
  induction rs generalizing c with
  | nil => exact ⟨[], [], by simp [Converter.convertGlyphs]⟩
  | cons r rs ih =>
    obtain ⟨ext, gext, h1, h2, h3⟩ := ih (c.emit r) (by rw [emit_bpp, hb])
    simp only [Converter.convertGlyphs, List.foldl_cons] at h1 h2 ⊢
    rw [emit_bitmap hd c hb] at h1
    rw [emit_glyphs] at h2
    exact ⟨_, _, by rw [h1, List.append_assoc], by rw [h2, List.append_assoc],
      by simp [h3]⟩

theorem samples_length (d : Nat) (bm : FT_Bitmap) : (samples d bm).length = bm.width * bm.rows := by
  simp [samples, Nat.mul_comm]

theorem samples_mod {d : Nat} (hd : ValidDepth d) (bm : FT_Bitmap) :
    (samples d bm).map (fun x => x % 2 ^ d) = samples d bm := by
  unfold samples
  rw [List.map_map]
  apply List.map_congr_left
  intro i _
  exact Nat.mod_eq_of_lt (sampleAt_lt hd bm _ _)

theorem convertGlyphs_decode {d : Nat} (hd : ValidDepth d) (c : Converter) (hb : c.bpp = d)
    (rs : List FT_Glyph) (i : Nat) (r : FT_Glyph) (hr : rs[i]? = some r) :
    ∃ g, (c.convertGlyphs rs).glyphs[c.glyphs.length + i]? = some g ∧
      g.width = r.bitmap.width ∧ g.height = r.bitmap.rows ∧
      g.xAdvance = r.advance_x >>> 6 ∧ g.xOffset = r.left ∧ g.yOffset = 1 - r.top ∧
      BitDecoder.decodeN d (c.convertGlyphs rs).bitmap (g.width * g.height)
          (BitDecoder.new g.offset)
        = some (samples d r.bitmap,
            { pos := g.offset + (g.width * g.height) * d / 8,
              shift := (g.width * g.height) * d % 8 }) := by
  induction rs generalizing c i with
  | nil => simp at hr
  | cons r0 rs ih =>
    cases i with
    | zero =>
      simp only [List.getElem?_cons_zero, Option.some.injEq] at hr
      subst hr
      obtain ⟨ext, gext, h1, h2, _⟩ :=
        convertGlyphs_extends hd (c.emit r0) (by rw [emit_bpp, hb]) rs
      simp only [Converter.convertGlyphs, List.foldl_cons] at h1 h2 ⊢
      rw [emit_bitmap hd c hb] at h1
      rw [emit_glyphs] at h2
      refine ⟨⟨c.bitmap.length, r0.bitmap.width, r0.bitmap.rows, r0.advance_x >>> 6, r0.left,
        1 - r0.top⟩, ?_, rfl, rfl, rfl, rfl, rfl, ?_⟩
      · rw [h2, List.append_assoc, List.getElem?_append_right (by omega)]
        simp
      have hst := storedAt_append hd c.bitmap ext (samples d r0.bitmap)
      have hdec := decodeN_stored hd hst (samples d r0.bitmap).length 0 (by simp)
      simp only [Nat.zero_mul, Nat.zero_div, Nat.zero_mod, Nat.add_zero, List.drop_zero,
        samples_mod hd, samples_length] at hdec
      rw [h1]
      exact hdec
    | succ i =>
      simp only [List.getElem?_cons_succ] at hr
      obtain ⟨g, h1, h2⟩ := ih (c.emit r0) (by rw [emit_bpp, hb]) i hr
      simp only [Converter.convertGlyphs, List.foldl_cons] at h1 h2 ⊢
      refine ⟨g, ?_, h2⟩
      rw [← h1, emit_glyphs]
      simp only [List.length_append, List.length_singleton]
      congr 1
      omega

theorem step_bpp (ft : FreeType) (c : Converter) (i : Int) : (c.step ft i).bpp = c.bpp := by
  unfold Converter.step
  split
  · rfl
  · rfl

theorem WellLaid_snoc {d : Nat} {gs : List BitmapFontGlyph} {len : Nat}
    (h : WellLaid d gs len) (g : BitmapFontGlyph) (hg : g.offset = len) :
    WellLaid d (gs ++ [g]) (len + glyphBytes d g) := by
  obtain ⟨hlen, hoff⟩ := h
  refine ⟨by simp [hlen], ?_⟩
  intro i g' hi
  rcases Nat.lt_or_ge i gs.length with h1 | h1
  · rw [List.getElem?_append_left h1] at hi
    rw [List.take_append_of_le_length (le_of_lt h1)]
    exact hoff i g' hi
  · rw [List.getElem?_append_right h1] at hi
    have h2 : i - gs.length = 0 := by
      rcases Nat.eq_zero_or_pos (i - gs.length) with h0 | h0
      · exact h0
      · rw [List.getElem?_eq_none (by simp only [List.length_singleton]; omega)] at hi
        cases hi
    rw [h2] at hi
    simp only [List.getElem?_cons_zero, Option.some.injEq] at hi
    subst hi
    have h3 : i = gs.length := by omega
    subst h3
    rw [List.take_append_of_le_length (le_refl _), List.take_length, hg, hlen]

theorem WellLaid_emit {d : Nat} (hd : ValidDepth d) (c : Converter) (hb : c.bpp = d)
    (r : FT_Glyph) (h : WellLaid d c.glyphs c.bitmap.length) :
    WellLaid d (c.emit r).glyphs (c.emit r).bitmap.length := by
  rw [emit_bitmap hd c hb, emit_glyphs, List.length_append, (packed_spec hd _).1,
    samples_length]
  exact WellLaid_snoc h _ rfl

theorem WellLaid_step {d : Nat} (hd : ValidDepth d) (ft : FreeType) (c : Converter)
    (hb : c.bpp = d) (i : Int) (h : WellLaid d c.glyphs c.bitmap.length) :
    WellLaid d (c.step ft i).glyphs (c.step ft i).bitmap.length := by
  unfold Converter.step
  split
  · exact h
  · exact WellLaid_emit hd c hb _ h

theorem WellLaid_steps {d : Nat} (hd : ValidDepth d) (ft : FreeType) (cps : List Int)
    (c : Converter) (hb : c.bpp = d) (h : WellLaid d c.glyphs c.bitmap.length) :
    WellLaid d (cps.foldl (Converter.step ft) c).glyphs
      (cps.foldl (Converter.step ft) c).bitmap.length := by
  induction cps generalizing c with
  | nil => exact h
  | cons i cps ih =>
    rw [List.foldl_cons]
    exact ih (c.step ft i) (by rw [step_bpp, hb]) (WellLaid_step hd ft c hb i h)

theorem WellLaid_operator {d : Nat} (hd : ValidDepth d) (ft : FreeType) (c : Converter)
    (hb : c.bpp = d) (h : WellLaid d c.glyphs c.bitmap.length) :
    WellLaid d (c.operator ft).glyphs (c.operator ft).bitmap.length := by
  unfold Converter.operator
  split
  · exact h
  · split
    · exact h
    · exact WellLaid_steps hd ft _ c hb h

theorem sum_take_le (l : List Nat) (i j : Nat) (hij : i ≤ j) :
    (l.take i).sum ≤ (l.take j).sum := by
  have h : l.take i = (l.take j).take i := by
    rw [List.take_take, Nat.min_eq_left hij]
  have h2 : (l.take j).sum = ((l.take j).take i).sum + ((l.take j).drop i).sum := by
    rw [← List.sum_append, List.take_append_drop]
  rw [h, h2]
  exact Nat.le_add_right _ _

theorem steps_eq_convertGlyphs (ft : FreeType) (cps : List Int) (c : Converter) :
    cps.foldl (Converter.step ft) c
      = c.convertGlyphs (cps.filterMap (ft.rasterize (c.bpp == 1))) := by
  induction cps generalizing c with
  | nil => rfl
  | cons i cps ih =>
    rw [List.foldl_cons, ih, step_bpp]
    unfold Converter.step
    cases h : ft.rasterize (c.bpp == 1) i with
    | none => simp [List.filterMap_cons, h]
    | some r => simp [List.filterMap_cons, h, Converter.convertGlyphs]

theorem convertGlyphs_glyphs_length (c : Converter) (rs : List FT_Glyph) :
    (c.convertGlyphs rs).glyphs.length = c.glyphs.length + rs.length := by
  induction rs generalizing c with
  | nil => rfl
  | cons r rs ih =>
    simp only [Converter.convertGlyphs, List.foldl_cons] at ih ⊢
    rw [ih, emit_glyphs, List.length_append, List.length_cons, List.length_cons,
      List.length_nil]
    omega

theorem codePoints_snoc (first last : Int) (h : first ≤ last) :
    codePoints first last = codePoints first (last - 1) ++ [last] := by
  unfold codePoints
  have h1 : (last + 1 - first).toNat = (last - 1 + 1 - first).toNat + 1 := by omega
  have h2 : first + (((last - 1 + 1 - first).toNat : Nat) : Int) = last := by omega
  rw [h1, List.range_succ, List.map_append, List.map_singleton, h2]

theorem convertGlyphs_glyphs_extends (c : Converter) (rs : List FT_Glyph) :
    ∃ gext, (c.convertGlyphs rs).glyphs = c.glyphs ++ gext := by
  induction rs generalizing c with
  | nil => exact ⟨[], by simp [Converter.convertGlyphs]⟩
  | cons r rs ih =>
    obtain ⟨gext, h⟩ := ih (c.emit r)
    simp only [Converter.convertGlyphs, List.foldl_cons] at h ⊢
    rw [emit_glyphs] at h
    exact ⟨_, by rw [h, List.append_assoc]⟩

theorem convertGlyphs_record (c : Converter) (rs : List FT_Glyph) (i : Nat) (r : FT_Glyph)
    (hr : rs[i]? = some r) :
    ∃ g, (c.convertGlyphs rs).glyphs[c.glyphs.length + i]? = some g ∧
      g.width = r.bitmap.width ∧ g.height = r.bitmap.rows ∧
      g.xAdvance = r.advance_x >>> 6 ∧ g.xOffset = r.left ∧ g.yOffset = 1 - r.top := by
  induction rs generalizing c i with
  | nil => simp at hr
  | cons r0 rs ih =>
    cases i with
    | zero =>
      simp only [List.getElem?_cons_zero, Option.some.injEq] at hr
      subst hr
      obtain ⟨gext, h2⟩ := convertGlyphs_glyphs_extends (c.emit r0) rs
      simp only [Converter.convertGlyphs, List.foldl_cons] at h2 ⊢
      rw [emit_glyphs] at h2
      refine ⟨⟨c.bitmap.length, r0.bitmap.width, r0.bitmap.rows, r0.advance_x >>> 6, r0.left,
        1 - r0.top⟩, ?_, rfl, rfl, rfl, rfl, rfl⟩
      rw [h2, List.append_assoc, List.getElem?_append_right (by omega)]
      simp
    | succ i =>
      simp only [List.getElem?_cons_succ] at hr
      obtain ⟨g, h1, h2⟩ := ih (c.emit r0) i hr
      simp only [Converter.convertGlyphs, List.foldl_cons] at h1 h2 ⊢
      refine ⟨g, ?_, h2⟩
      rw [← h1, emit_glyphs]
      simp only [List.length_append, List.length_singleton]
      congr 1
      omega

theorem filterMap_getElem {α β : Type} (f : α → Option β) (l : List α)
    (hall : ∀ a ∈ l, f a ≠ none) (k : Nat) (a : α) (ha : l[k]? = some a) :
    (l.filterMap f)[k]? = f a := by
  induction l generalizing k with
  | nil => simp at ha
  | cons x xs ih =>
    have hx : f x ≠ none := hall x (List.mem_cons_self _ _)
    obtain ⟨b, hb⟩ := Option.ne_none_iff_exists'.1 hx
    rw [List.filterMap_cons, hb]
    cases k with
    | zero =>
      simp only [List.getElem?_cons_zero, Option.some.injEq] at ha
      subst ha
      simp [hb]
    | succ k =>
      simp only [List.getElem?_cons_succ] at ha ⊢
      exact ih (fun a h => hall a (List.mem_cons_of_mem _ h)) k ha

theorem filterMap_length_of_all {α β : Type} (f : α → Option β) (l : List α)
    (hall : ∀ a ∈ l, f a ≠ none) : (l.filterMap f).length = l.length := by
  induction l with
  | nil => rfl
  | cons x xs ih =>
    have hx : f x ≠ none := hall x (List.mem_cons_self _ _)
    obtain ⟨b, hb⟩ := Option.ne_none_iff_exists'.1 hx
    rw [List.filterMap_cons, hb]
    simp only [List.length_cons]
    rw [ih (fun a h => hall a (List.mem_cons_of_mem _ h))]

theorem mem_codePoints (first last i : Int) :
    i ∈ codePoints first last ↔ first ≤ i ∧ i ≤ last := by
  unfold codePoints
  simp only [List.mem_map, List.mem_range]
  constructor
  · rintro ⟨k, hk, rfl⟩
    omega
  · rintro ⟨h1, h2⟩
    exact ⟨(i - first).toNat, by omega, by omega⟩

theorem codePoints_getElem (first last i : Int) (h1 : first ≤ i) (h2 : i ≤ last) :
    (codePoints first last)[(i - first).toNat]? = some i := by
  unfold codePoints
  rw [List.getElem?_map, List.getElem?_range (by omega)]
  simp only [Option.map_some', Option.some.injEq]
  omega

theorem decode_peek {d : Nat} (hd : ValidDepth d) (mem : List Nat) (off i : Nat)
    (h : off + i * d / 8 < mem.length) :
    BitDecoder.decode d mem { pos := off + i * d / 8, shift := i * d % 8 }
      = some (peek d mem off i, { pos := off + (i + 1) * d / 8, shift := (i + 1) * d % 8 }) := by
  unfold BitDecoder.decode peek
  simp only [List.getElem?_eq_getElem h, List.getD_eq_getElem?_getD, Option.getD_some]
  rcases hd with h1 | h1 | h1 | h1 <;> subst h1 <;> split <;> simp <;> omega

theorem foldlM_option_congr {σ α : Type} (f g : σ → α → Option σ) (l : List α)
    (h : ∀ s, ∀ a ∈ l, f s a = g s a) (s : σ) : l.foldlM f s = l.foldlM g s := by
  induction l generalizing s with
  | nil => rfl
  | cons a l ih =>
    simp only [List.foldlM_cons]
    rw [h s a (List.mem_cons_self _ _)]
    cases g s a with
    | none => rfl
    | some s1 => exact ih (fun s b hb => h s b (List.mem_cons_of_mem _ hb)) s1

theorem foldlM_loops {σ : Type} (H W : Nat) (f : σ → Nat → Nat → Option σ) (s : σ) :
    (List.range H).foldlM (fun st sy => (List.range W).foldlM (fun st sx => f st sx sy) st) s
      = (List.range (H * W)).foldlM (fun st i => f st (i % W) (i / W)) s := by
  induction H with
  | zero => simp
  | succ H ih =>
    rw [List.range_succ, List.foldlM_append, ih, Nat.succ_mul, List.range_add,
      List.foldlM_append]
    cases (List.range (H * W)).foldlM (fun st i => f st (i % W) (i / W)) s with
    | none => rfl
    | some s1 =>
      simp only [Option.some_bind, List.foldlM_cons, List.foldlM_nil, List.foldlM_map]
      have hrow : (List.range W).foldlM (fun st sx => f st sx H) s1
          = (List.range W).foldlM (fun x y => f x ((H * W + y) % W) ((H * W + y) / W)) s1 := by
        apply foldlM_option_congr
        intro st a ha
        have ha2 : a < W := List.mem_range.1 ha
        rw [Nat.mul_add_mod_of_lt ha2, Nat.mul_comm H W, Nat.mul_add_div (by omega),
          Nat.div_eq_of_lt ha2, Nat.add_zero]
      change ((List.range W).foldlM (fun st sx => f st sx H) s1 >>= pure) = _
      rw [bind_pure, hrow]
      rfl

theorem readable_lt {d len : Nat} (hd : ValidDepth d) {g : BitmapFontGlyph}
    (h : Readable d len g) (k : Nat) (hk : k < g.height * g.width) :
    g.offset + k * d / 8 < len := by
  have hk2 : k < g.width * g.height := by rw [Nat.mul_comm]; exact hk
  rcases h with h0 | h0
  · omega
  · have h1 : k * d / 8 < packedLen d (g.width * g.height) := by
      unfold packedLen
      rcases hd with h | h | h | h <;> subst h <;> omega
    omega

theorem render_flat {d : Nat} (hd : ValidDepth d) (mem : List Nat) (g : BitmapFontGlyph)
    (x y width : Int) (n : Nat) (hn : ∀ k, k < n → g.offset + k * d / 8 < mem.length) :
    (List.range n).foldlM (fun (st : BitDecoder × List Store) (i : Nat) =>
        match BitDecoder.decode d mem st.1 with
        | none => none
        | some (v, dec) =>
          some (dec, st.2 ++ [Store.mk (x + ((i % g.width : Nat) : Int) + g.xOffset)
            (y + ((i / g.width : Nat) : Int) + g.yOffset)
            ((y + ((i / g.width : Nat) : Int) + g.yOffset) * width
              + (x + ((i % g.width : Nat) : Int) + g.xOffset))
            ((v * scale d) % 256)]))
        (BitDecoder.new g.offset, [])
      = some ({ pos := g.offset + n * d / 8, shift := n * d % 8 },
          (List.range n).map (glyphStore d mem g x y width)) := by
  induction n with
  | zero => simp [BitDecoder.new]
  | succ n ih =>
    rw [List.range_succ, List.foldlM_append, ih (fun k hk => hn k (by omega))]
    simp only [Option.bind_eq_bind, Option.some_bind, List.foldlM_cons, List.foldlM_nil,
      decode_peek hd mem g.offset n (hn n (by omega)), List.map_append, List.map_singleton]
    rfl

theorem renderGlyph_eq {d : Nat} (hd : ValidDepth d) (mem : List Nat) (g : BitmapFontGlyph)
    (x y width : Int) (hr : Readable d mem.length g) :
    Converter.renderGlyph d mem g x y width
      = some ((List.range (g.height * g.width)).map (glyphStore d mem g x y width)) := by
  unfold Converter.renderGlyph
  simp only []
  rw [foldlM_loops g.height g.width
    (fun (st : BitDecoder × List Store) (sx sy : Nat) =>
      match BitDecoder.decode d mem st.1 with
      | none => none
      | some (v, dec) =>
        some (dec, st.2 ++ [Store.mk (x + (sx : Int) + g.xOffset) (y + (sy : Int) + g.yOffset)
          ((y + (sy : Int) + g.yOffset) * width + (x + (sx : Int) + g.xOffset))
          ((v * scale d) % 256)]))]
  rw [render_flat hd mem g x y width _ (fun k hk => readable_lt hd hr k hk)]
  rfl

theorem measure_loop (gs : List BitmapFontGlyph) (w m : Int) :
    gs.foldl (fun (wm : Int × Int) (g : BitmapFontGlyph) =>
        (wm.1 + g.xAdvance, min wm.2 g.yOffset)) (w, m)
      = (w + (gs.map (fun g => g.xAdvance)).sum, (gs.map (fun g => g.yOffset)).foldl min m) := by
  induction gs generalizing w m with
  | nil => simp
  | cons g gs ih =>
    simp only [List.foldl_cons, List.map_cons, List.sum_cons]
    rw [ih, Int.add_assoc]

theorem foldl_min_spec (l : List Int) (m : Int) :
    l.foldl min m ≤ m ∧ (∀ a ∈ l, l.foldl min m ≤ a) ∧
      (l.foldl min m = m ∨ ∃ a ∈ l, l.foldl min m = a) := by
  induction l generalizing m with
  | nil => simp
  | cons b l ih =>
    obtain ⟨h1, h2, h3⟩ := ih (min m b)
    simp only [List.foldl_cons]
    refine ⟨le_trans h1 (min_le_left _ _), ?_, ?_⟩
    · intro a ha
      rcases List.mem_cons.1 ha with h | h
      · subst h; exact le_trans h1 (min_le_right _ _)
      · exact h2 a h
    · rcases h3 with h | ⟨a, ha, h⟩
      · rcases min_choice m b with hm | hm
        · left; rw [h, hm]
        · right; exact ⟨b, List.mem_cons_self _ _, by rw [h, hm]⟩
      · right; exact ⟨a, List.mem_cons_of_mem _ ha, h⟩

theorem drawGlyph_eq {d : Nat} (hd : ValidDepth d) (c : Converter) (hb : c.bpp = d)
    (g : BitmapFontGlyph) (x y width : Int) :
    c.drawGlyph g x y width = Converter.renderGlyph d c.bitmap g x y width := by
  unfold Converter.drawGlyph
  rcases hd with h | h | h | h <;> subst h <;> simp [hb]

theorem draw_loop {d : Nat} (hd : ValidDepth d) (c : Converter) (hb : c.bpp = d)
    (y width : Int) (gs : List BitmapFontGlyph)
    (hr : ∀ g ∈ gs, Readable d c.bitmap.length g) (x : Int) (acc : List Store) :
    gs.foldlM (fun (st : Int × List Store) (g : BitmapFontGlyph) =>
        match c.drawGlyph g st.1 y width with
        | none => none
        | some ss => some (st.1 + g.xAdvance, st.2 ++ ss)) (x, acc)
      = some (x + (gs.map (fun g => g.xAdvance)).sum,
          acc ++ layoutStores d c.bitmap y width x gs) := by
  induction gs generalizing x acc with
  | nil => simp [layoutStores]
  | cons g gs ih =>
    have hg : Readable d c.bitmap.length g := hr g (List.mem_cons_self _ _)
    have hdraw : c.drawGlyph g x y width
        = some ((List.range (g.height * g.width)).map (glyphStore d c.bitmap g x y width)) := by
      rw [drawGlyph_eq hd c hb, renderGlyph_eq hd c.bitmap g x y width hg]
    simp only [List.foldlM_cons, hdraw, Option.bind_eq_bind, Option.some_bind]
    rw [ih (fun g' h' => hr g' (List.mem_cons_of_mem _ h'))]
    simp only [layoutStores, List.map_cons, List.sum_cons, List.append_assoc, Int.add_assoc]

theorem rowMajor_flatMap {β : Type} (H W : Nat) (f : Nat → Nat → β) :
    (List.range H).flatMap (fun y => (List.range W).map (fun x => f x y))
      = (List.range (H * W)).map (fun i => f (i % W) (i / W)) := by
  induction H with
  | zero => simp
  | succ H ih =>
    rw [List.range_succ, List.flatMap_append, ih, Nat.succ_mul, List.range_add,
      List.map_append, List.map_map, List.flatMap_singleton]
    congr 1
    apply List.map_congr_left
    intro x hx
    have hx2 : x < W := List.mem_range.1 hx
    simp only [Function.comp]
    rw [Nat.mul_add_mod_of_lt hx2, Nat.mul_comm H W, Nat.mul_add_div (by omega),
      Nat.div_eq_of_lt hx2, Nat.add_zero]

theorem layoutStores_coords (d : Nat) (mem : List Nat) (y width x : Int)
    (gs : List BitmapFontGlyph) :
    (layoutStores d mem y width x gs).map (fun s => (s.dx, s.dy))
      = (List.range gs.length).flatMap (fun i =>
          match gs[i]? with
          | none => []
          | some g =>
            (List.range g.height).flatMap (fun (sy : Nat) =>
              (List.range g.width).map (fun (sx : Nat) =>
                (x + ((gs.take i).map (fun g => g.xAdvance)).sum + (sx : Int) + g.xOffset,
                  y + (sy : Int) + g.yOffset)))) := by
  induction gs generalizing x with
  | nil => simp [layoutStores]
  | cons g gs ih =>
    simp only [layoutStores, List.map_append, List.length_cons, List.range_succ_eq_map,
      List.flatMap_cons, List.flatMap_map, List.getElem?_cons_zero, List.take_zero,
      List.map_nil, List.sum_nil, Int.add_zero]
    congr 1
    · rw [rowMajor_flatMap, List.map_map]
      rfl
    · rw [ih]
      apply List.flatMap_congr
      intro i _
      simp only [Function.comp, List.getElem?_cons_succ, List.take_succ_cons, List.map_cons,
        List.sum_cons, Int.add_assoc]

theorem layoutStores_index (d : Nat) (mem : List Nat) (y width x : Int)
    (gs : List BitmapFontGlyph) :
    ∀ s ∈ layoutStores d mem y width x gs, s.index = s.dy * width + s.dx := by
  induction gs generalizing x with
  | nil => simp [layoutStores]
  | cons g gs ih =>
    intro s hs
    simp only [layoutStores, List.mem_append, List.mem_map, List.mem_range] at hs
    rcases hs with ⟨k, _, rfl⟩ | hs
    · rfl
    · exact ih _ s hs

theorem renderFont_canvas (c : Converter) :
    c.renderFont.width = (c.glyphs.map (fun g => g.xAdvance)).sum
      ∧ c.renderFont.height = (c.yAdvance : Int)
      ∧ c.renderFont.y = -((c.glyphs.map (fun g => g.yOffset)).foldl min 0) := by
  unfold Converter.renderFont
  simp only [measure_loop, Int.zero_add, and_self]

theorem renderFont_allocated (c : Converter) :
    c.renderFont.allocated = decide (0 ≤ c.renderFont.width * c.renderFont.height) := rfl

theorem renderFont_stores_eq (c : Converter) :
    c.renderFont.stores
      = if 0 ≤ c.renderFont.width * c.renderFont.height then
          c.drawFont c.renderFont.y c.renderFont.width
        else none := by
  unfold Converter.renderFont
  simp only [decide_eq_true_eq]

theorem drawFont_eq {d : Nat} (hd : ValidDepth d) (c : Converter) (hb : c.bpp = d)
    (hr : ∀ g ∈ c.glyphs, Readable d c.bitmap.length g) (y width : Int) :
    c.drawFont y width = some (layoutStores d c.bitmap y width 0 c.glyphs) := by
  unfold Converter.drawFont
  rw [draw_loop hd c hb _ _ c.glyphs hr 0 []]
  simp

theorem renderFont_stores {d : Nat} (hd : ValidDepth d) (c : Converter) (hb : c.bpp = d)
    (hr : ∀ g ∈ c.glyphs, Readable d c.bitmap.length g)
    (halloc : 0 ≤ c.renderFont.width * c.renderFont.height) :
    c.renderFont.stores
      = some (layoutStores d c.bitmap c.renderFont.y c.renderFont.width 0 c.glyphs) := by
  rw [renderFont_stores_eq, if_pos halloc, drawFont_eq hd c hb hr]

theorem renderFont_stores_alloc (c : Converter) (ss : List Store)
    (h : c.renderFont.stores = some ss) :
    0 ≤ c.renderFont.width * c.renderFont.height
      ∧ c.drawFont c.renderFont.y c.renderFont.width = some ss := by
  rw [renderFont_stores_eq] at h
  by_cases ha : 0 ≤ c.renderFont.width * c.renderFont.height
  · rw [if_pos ha] at h
    exact ⟨ha, h⟩
  · rw [if_neg ha] at h
    cases h

theorem decode_append (d : Nat) (mem ext : List Nat) (s : BitDecoder)
    (r : Nat × BitDecoder) (h : BitDecoder.decode d mem s = some r) :
    BitDecoder.decode d (mem ++ ext) s = some r := by
  unfold BitDecoder.decode at h ⊢
  cases hm : mem[s.pos]? with
  | none => rw [hm] at h; cases h
  | some b =>
    have hlt : s.pos < mem.length := by
      rcases Nat.lt_or_ge s.pos mem.length with h1 | h1
      · exact h1
      · rw [List.getElem?_eq_none h1] at hm; cases hm
    rw [List.getElem?_append_left hlt, hm]
    rw [hm] at h
    exact h

theorem foldlM_option_mono {σ α : Type} (f g : σ → α → Option σ)
    (h : ∀ s a r, f s a = some r → g s a = some r) (l : List α) (s r : σ)
    (hf : l.foldlM f s = some r) : l.foldlM g s = some r := by
  induction l generalizing s with
  | nil => exact hf
  | cons a l ih =>
    simp only [List.foldlM_cons] at hf ⊢
    cases hfa : f s a with
    | none => rw [hfa] at hf; cases hf
    | some s1 =>
      rw [hfa] at hf
      rw [h s a s1 hfa]
      exact ih s1 hf

theorem renderGlyph_append (d : Nat) (mem ext : List Nat) (g : BitmapFontGlyph)
    (x y width : Int) (ss : List Store)
    (h : Converter.renderGlyph d mem g x y width = some ss) :
    Converter.renderGlyph d (mem ++ ext) g x y width = some ss := by
  unfold Converter.renderGlyph at h ⊢
  simp only [Option.map_eq_some'] at h ⊢
  obtain ⟨st, hst, hss⟩ := h
  refine ⟨st, ?_, hss⟩
  refine foldlM_option_mono _ _ ?_ _ _ _ hst
  intro s sy r hrow
  refine foldlM_option_mono _ _ ?_ _ _ _ hrow
  intro s1 sx r1 hpix
  cases hdec : BitDecoder.decode d mem s1.1 with
  | none => simp only [hdec] at hpix; cases hpix
  | some vd =>
    simp only [hdec] at hpix
    simp only [decode_append d mem ext s1.1 vd hdec]
    exact hpix

theorem mem_le_sum (l : List Nat) (a : Nat) (h : a ∈ l) : a ≤ l.sum := by
  induction l with
  | nil => cases h
  | cons b l ih =>
    rw [List.sum_cons]
    rcases List.mem_cons.1 h with h1 | h1
    · subst h1; exact Nat.le_add_right _ _
    · exact le_trans (ih h1) (Nat.le_add_left _ _)

theorem drawGlyph_append (c : Converter) (ext : List Nat) (g : BitmapFontGlyph)
    (x y width : Int) (ss : List Store) (h : c.drawGlyph g x y width = some ss) :
    ({ c with bitmap := c.bitmap ++ ext } : Converter).drawGlyph g x y width = some ss := by
  unfold Converter.drawGlyph at h ⊢
  simp only []
  split_ifs at h ⊢
  · exact renderGlyph_append _ _ ext _ _ _ _ _ h
  · exact renderGlyph_append _ _ ext _ _ _ _ _ h
  · exact renderGlyph_append _ _ ext _ _ _ _ _ h
  · exact renderGlyph_append _ _ ext _ _ _ _ _ h
  · exact h

theorem drawFont_append (c : Converter) (ext : List Nat) (y width : Int)
    (ss : List Store) (h : c.drawFont y width = some ss) :
    ({ c with bitmap := c.bitmap ++ ext } : Converter).drawFont y width = some ss := by
  unfold Converter.drawFont at h ⊢
  simp only [Option.map_eq_some'] at h ⊢
  obtain ⟨st, hst, hss⟩ := h
  refine ⟨st, ?_, hss⟩
  refine foldlM_option_mono _ _ ?_ _ _ _ hst
  intro s g r hstep
  cases hg : c.drawGlyph g s.1 y width with
  | none => simp only [hg] at hstep; cases hstep
  | some gs =>
    simp only [hg] at hstep
    simp only [drawGlyph_append c ext g _ _ _ gs hg]
    exact hstep

theorem renderFont_stores_layout {d : Nat} (hd : ValidDepth d) (c : Converter)
    (hb : c.bpp = d) (ss : List Store) (h : c.renderFont.stores = some ss) :
    ∃ mem, ss = layoutStores d mem c.renderFont.y c.renderFont.width 0 c.glyphs := by
  let pad : List Nat := List.replicate
    ((c.glyphs.map (fun g => g.offset + packedLen d (g.width * g.height))).sum) 0
  obtain ⟨_, hdraw⟩ := renderFont_stores_alloc c ss h
  have hpad := drawFont_append c pad _ _ ss hdraw
  have hr : ∀ g ∈ c.glyphs, Readable d (c.bitmap ++ pad).length g := by
    intro g hg
    right
    have h1 := mem_le_sum _ _ (List.mem_map_of_mem
      (fun g => g.offset + packedLen d (g.width * g.height)) hg)
    simp only [List.length_append, pad, List.length_replicate]
    have h2 : g.offset + packedLen d (g.width * g.height)
        ≤ (c.glyphs.map (fun g => g.offset + packedLen d (g.width * g.height))).sum := h1
    omega
  have hst := drawFont_eq hd ({ c with bitmap := c.bitmap ++ pad } : Converter) hb hr
    c.renderFont.y c.renderFont.width
  rw [hpad] at hst
  exact ⟨c.bitmap ++ pad, Option.some.inj hst⟩

theorem encode8_fresh (dst : List Nat) (x : Nat) :
    BitEncoder.encode 8 { data := dst, buf := 0, shift := 0 } x
      = { data := dst ++ [x % 256], buf := 0, shift := 0 } := by
  have h : (x % 256) &&& Mask 8 = x % 256 := by
    rw [and_Mask (by decide : ValidDepth 8)]; norm_num
  unfold BitEncoder.encode
  simp only [h, Nat.shiftLeft_zero, Nat.zero_or, Nat.mod_mod, Nat.zero_add, ge_iff_le,
    le_refl, if_true]

theorem encodeAll8_fresh (dst xs : List Nat) :
    BitEncoder.encodeAll 8 (BitEncoder.new dst) xs
      = { data := dst ++ xs.map (fun x => x % 256), buf := 0, shift := 0 } := by
  induction xs generalizing dst with
  | nil => simp [BitEncoder.encodeAll, BitEncoder.new]
  | cons x xs ih =>
    have h := ih (dst ++ [x % 256])
    simp only [BitEncoder.encodeAll, BitEncoder.new, List.foldl_cons] at h ⊢
    rw [encode8_fresh, h]
    simp

theorem map_mod_of_lt (xs : List Nat) (h8 : ∀ x ∈ xs, x < 256) :
    xs.map (fun x => x % 256) = xs := by
  induction xs with
  | nil => rfl
  | cons x xs ih =>
    rw [List.map_cons, Nat.mod_eq_of_lt (h8 x (List.mem_cons_self _ _)),
      ih (fun y hy => h8 y (List.mem_cons_of_mem _ hy))]

theorem encodeAll_state {d : Nat} (hd : ValidDepth d) (dst xs : List Nat) :
    (BitEncoder.encodeAll d (BitEncoder.new dst) xs).shift = xs.length * d % 8
      ∧ (BitEncoder.encodeAll d (BitEncoder.new dst) xs).data.length
          = dst.length + xs.length * d / 8
      ∧ (BitEncoder.encodeAll d (BitEncoder.new dst) xs).buf
          < 2 ^ (BitEncoder.encodeAll d (BitEncoder.new dst) xs).shift := by
  obtain ⟨out, hdata, hlen, hs, hb, _, _⟩ := EncInv_encodeAll hd dst xs
  have hcomm : d * xs.length = xs.length * d := Nat.mul_comm _ _
  refine ⟨by omega, ?_, hb⟩
  rw [hdata, List.length_append]
  omega

theorem convertBitmap_append (N : Nat) (bm : FT_Bitmap) (dst : List Nat) :
    Converter.convertBitmap N bm dst = dst ++ packed N (samples N bm) := by
  rw [convertBitmap_eq, encode_commit_data]

theorem emit_bitmap_extends (c : Converter) (r : FT_Glyph) :
    ∃ ext, (c.emit r).bitmap = c.bitmap ++ ext := by
  unfold Converter.emit
  simp only [convertBitmap_append]
  split_ifs
  · exact ⟨_, rfl⟩
  · exact ⟨_, rfl⟩
  · exact ⟨_, rfl⟩
  · exact ⟨_, rfl⟩
  · exact ⟨[], by simp⟩

theorem convertGlyphs_bitmap_extends (c : Converter) (rs : List FT_Glyph) :
    ∃ ext, (c.convertGlyphs rs).bitmap = c.bitmap ++ ext := by
  induction rs generalizing c with
  | nil => exact ⟨[], by simp [Converter.convertGlyphs]⟩
  | cons r rs ih =>
    obtain ⟨ext1, h1⟩ := emit_bitmap_extends c r
    obtain ⟨ext2, h2⟩ := ih (c.emit r)
    simp only [Converter.convertGlyphs, List.foldl_cons] at h2 ⊢
    exact ⟨ext1 ++ ext2, by rw [h2, h1, List.append_assoc]⟩

theorem operator_yAdvance (ft : FreeType) (c : Converter) (hinit : ft.init_error = 0)
    (hface : ft.face_error = 0) :
    (c.operator ft).yAdvance = ((ft.metrics_height >>> 6) % 256).toNat := by
  unfold Converter.operator
  simp [hinit, hface]

theorem stores_mem {d : Nat} (hd : ValidDepth d) (c : Converter) (hb : c.bpp = d)
    (ss : List Store) (hss : c.renderFont.stores = some ss) (s : Store) (hs : s ∈ ss) :
    ∃ (i : Nat) (g : BitmapFontGlyph) (sx sy : Nat), c.glyphs[i]? = some g ∧
      sx < g.width ∧ sy < g.height ∧
      s.dx = ((c.glyphs.take i).map (fun g => g.xAdvance)).sum + (sx : Int) + g.xOffset ∧
      s.dy = c.renderFont.y + (sy : Int) + g.yOffset ∧
      s.index = s.dy * c.renderFont.width + s.dx := by
  obtain ⟨mem, hmem⟩ := renderFont_stores_layout hd c hb ss hss
  have hcoords := layoutStores_coords d mem c.renderFont.y c.renderFont.width 0 c.glyphs
  simp only [Int.zero_add] at hcoords
  have hidx := layoutStores_index d mem c.renderFont.y c.renderFont.width 0 c.glyphs
  rw [← hmem] at hcoords hidx
  have hpair : (s.dx, s.dy) ∈ ss.map (fun s => (s.dx, s.dy)) := List.mem_map_of_mem _ hs
  rw [hcoords, List.mem_flatMap] at hpair
  obtain ⟨i, _, hi⟩ := hpair
  cases hg : c.glyphs[i]? with
  | none => rw [hg] at hi; simp at hi
  | some g =>
    rw [hg] at hi
    simp only [List.mem_flatMap, List.mem_map, List.mem_range, Prod.mk.injEq] at hi
    obtain ⟨sy, hsy, sx, hsx, hdx, hdy⟩ := hi
    exact ⟨i, g, sx, sy, hg, hsx, hsy, hdx.symm, hdy.symm, hidx s hs⟩

theorem index_in_canvas {dx dy W H : Int} (h0 : 0 ≤ dx) (h1 : dx < W) (h2 : 0 ≤ dy)
    (h3 : dy < H) : 0 ≤ dy * W + dx ∧ dy * W + dx < W * H := by
  have hW : 0 ≤ W := by omega
  have ha : 0 ≤ dy * W := Int.mul_nonneg h2 hW
  have hb : (dy + 1) * W ≤ H * W := Int.mul_le_mul_of_nonneg_right (by omega) hW
  have hc : (dy + 1) * W = dy * W + W := by ring
  have hd : H * W = W * H := Int.mul_comm _ _
  constructor
  · omega
  · omega

theorem WellLaid_bound {d : Nat} {gs : List BitmapFontGlyph} {len : Nat}
    (h : WellLaid d gs len) (i : Nat) (g : BitmapFontGlyph) (hg : gs[i]? = some g) :
    g.offset + glyphBytes d g ≤ len := by
  obtain ⟨hlen, hoff⟩ := h
  have hi : i < gs.length := by
    rcases Nat.lt_or_ge i gs.length with h1 | h1
    · exact h1
    · rw [List.getElem?_eq_none h1] at hg; cases hg
  have hgi : gs[i] = g := by
    rw [List.getElem?_eq_getElem hi] at hg
    exact Option.some.inj hg
  have hsplit : gs = gs.take i ++ g :: gs.drop (i + 1) := by
    rw [← hgi, ← List.drop_eq_getElem_cons hi, List.take_append_drop]
  have hsum : (gs.map (glyphBytes d)).sum
      = ((gs.take i).map (glyphBytes d)).sum + (glyphBytes d g
          + ((gs.drop (i + 1)).map (glyphBytes d)).sum) := by
    conv_lhs => rw [hsplit]
    rw [List.map_append, List.sum_append, List.map_cons, List.sum_cons]
  rw [hoff i g hg, hlen, hsum]
  omega

theorem readsN_eq {d : Nat} (hd : ValidDepth d) (mem : List Nat) (off n i : Nat)
    (hin : ∀ k, k < n → off + (i + k) * d / 8 < mem.length) :
    BitDecoder.readsN d mem n { pos := off + i * d / 8, shift := i * d % 8 }
      = (List.range n).map (fun k => off + (i + k) * d / 8) := by
  induction n generalizing i with
  | zero => rfl
  | succ n ih =>
    have h0 := hin 0 (by omega)
    rw [Nat.add_zero] at h0
    unfold BitDecoder.readsN
    rw [decode_peek hd mem off i h0]
    simp only []
    have hin1 : ∀ k, k < n → off + (i + 1 + k) * d / 8 < mem.length := by
      intro k hk
      have h1 := hin (k + 1) (by omega)
      have h2 : i + (k + 1) = i + 1 + k := by omega
      rw [h2] at h1
      exact h1
    rw [ih (i + 1) hin1, List.range_succ_eq_map, List.map_cons, List.map_map]
    simp only [Nat.add_zero, List.cons.injEq, true_and]
    apply List.map_congr_left
    intro k _
    simp only [Function.comp, Nat.succ_eq_add_one]
    congr 3
    omega

theorem operator_failed (ft : FreeType) (c : Converter)
    (h : ft.init_error ≠ 0 ∨ ft.face_error ≠ 0) : c.operator ft = c := by
  unfold Converter.operator
  rcases h with h | h
  · simp [h]
  · by_cases h1 : ft.init_error = 0
    · simp [h1, h]
    · simp [h1]

theorem renderFont_empty (c : Converter) (h : c.glyphs = []) :
    c.renderFont
      = { width := 0, height := (c.yAdvance : Int), y := 0, allocated := true,
          stores := some [] } := by
  unfold Converter.renderFont Converter.drawFont
  rw [h]
  simp

theorem map_eq_map_of_getElem {α β γ : Type} (f : α → γ) (h : β → γ) (l1 : List α)
    (l2 : List β) (hlen : l1.length = l2.length)
    (hget : ∀ (i : Nat) (r : β), l2[i]? = some r → ∃ g : α, l1[i]? = some g ∧ f g = h r) :
    l1.map f = l2.map h := by
  apply List.ext_getElem?
  intro i
  rw [List.getElem?_map, List.getElem?_map]
  cases h2 : l2[i]? with
  | none =>
    have hi : l1.length ≤ i := by
      rw [hlen]
      rcases Nat.lt_or_ge i l2.length with h3 | h3
      · rw [List.getElem?_eq_getElem h3] at h2; cases h2
      · exact h3
    rw [List.getElem?_eq_none hi]
    rfl
  | some r =>
    obtain ⟨g, hg, hfg⟩ := hget i r h2
    rw [hg]
    simp [hfg]

theorem operator_ok (ft : FreeType) (c : Converter) (hinit : ft.init_error = 0)
    (hface : ft.face_error = 0) :
    (c.operator ft).glyphs
        = (c.convertGlyphs
            ((codePoints c.first c.last).filterMap (ft.rasterize (c.bpp == 1)))).glyphs
      ∧ (c.operator ft).bitmap
        = (c.convertGlyphs
            ((codePoints c.first c.last).filterMap (ft.rasterize (c.bpp == 1)))).bitmap := by
  unfold Converter.operator Converter.convertRange
  simp only [hinit, hface, ne_eq, not_true_eq_false, if_false, steps_eq_convertGlyphs,
    and_self]

theorem convertGlyphs_bytes (d : Nat) (c : Converter) (hglyphs : c.glyphs = [])
    (rs : List FT_Glyph) :
    (c.convertGlyphs rs).glyphs.map (glyphBytes d)
      = rs.map (fun r => packedLen d (r.bitmap.width * r.bitmap.rows)) := by
  apply map_eq_map_of_getElem
  · rw [convertGlyphs_glyphs_length, hglyphs]; simp
  · intro i r hr
    obtain ⟨g, hg, hw, hh, _⟩ := convertGlyphs_record c rs i r hr
    rw [hglyphs] at hg
    simp only [List.length_nil, Nat.zero_add] at hg
    exact ⟨g, hg, by unfold glyphBytes; rw [hw, hh]⟩

theorem peek_lt {d : Nat} (hd : ValidDepth d) (mem : List Nat) (off i : Nat) :
    peek d mem off i < 2 ^ d := by
  unfold peek
  rw [and_Mask_eq_mod hd]
  have h1 : (mem.getD (off + i * d / 8) 0 >>> (i * d % 8)) % 2 ^ d < 2 ^ d :=
    Nat.mod_lt _ (Nat.two_pow_pos d)
  exact lt_of_le_of_lt (Nat.mod_le _ _) h1

theorem decodeN_peek {d : Nat} (hd : ValidDepth d) (mem : List Nat) (off n i : Nat)
    (hin : ∀ k, k < n → off + (i + k) * d / 8 < mem.length) :
    BitDecoder.decodeN d mem n { pos := off + i * d / 8, shift := i * d % 8 }
      = some ((List.range n).map (fun k => peek d mem off (i + k)),
          { pos := off + (i + n) * d / 8, shift := (i + n) * d % 8 }) := by
  induction n generalizing i with
  | zero => simp [BitDecoder.decodeN]
  | succ n ih =>
    have h0 := hin 0 (by omega)
    rw [Nat.add_zero] at h0
    have hin1 : ∀ k, k < n → off + (i + 1 + k) * d / 8 < mem.length := by
      intro k hk
      have h1 := hin (k + 1) (by omega)
      have h2 : i + (k + 1) = i + 1 + k := by omega
      rw [h2] at h1
      exact h1
    unfold BitDecoder.decodeN
    rw [decode_peek hd mem off i h0]
    simp only [ih (i + 1) hin1]
    rw [List.range_succ_eq_map, List.map_cons, List.map_map]
    have hn : i + 1 + n = i + (n + 1) := by omega
    rw [hn]
    simp only [Nat.add_zero, Option.some.injEq, Prod.mk.injEq, List.cons.injEq, true_and,
      and_true]
    apply List.map_congr_left
    intro k _
    simp only [Function.comp, Nat.succ_eq_add_one]
    congr 1
    omega

theorem decodeN_inbounds {d : Nat} (hd : ValidDepth d) (mem : List Nat) (off n i : Nat)
    (r : List Nat × BitDecoder)
    (h : BitDecoder.decodeN d mem n { pos := off + i * d / 8, shift := i * d % 8 } = some r) :
    ∀ k, k < n → off + (i + k) * d / 8 < mem.length := by
  induction n generalizing i r with
  | zero => intro k hk; omega
  | succ n ih =>
    have h0 : off + i * d / 8 < mem.length := by
      rcases Nat.lt_or_ge (off + i * d / 8) mem.length with h1 | h1
      · exact h1
      · unfold BitDecoder.decodeN BitDecoder.decode at h
        simp only [List.getElem?_eq_none h1] at h
        cases h
    unfold BitDecoder.decodeN at h
    rw [decode_peek hd mem off i h0] at h
    simp only [] at h
    cases hrest : BitDecoder.decodeN d mem n
        { pos := off + (i + 1) * d / 8, shift := (i + 1) * d % 8 } with
    | none => rw [hrest] at h; cases h
    | some r1 =>
      have hih := ih (i + 1) r1 hrest
      intro k hk
      cases k with
      | zero => rw [Nat.add_zero]; exact h0
      | succ k =>
        have h2 := hih k (by omega)
        have h3 : i + (k + 1) = i + 1 + k := by omega
        rw [h3]
        exact h2

theorem renderGlyph_of_inbounds {d : Nat} (hd : ValidDepth d) (mem : List Nat)
    (g : BitmapFontGlyph) (x y width : Int)
    (hin : ∀ k, k < g.height * g.width → g.offset + k * d / 8 < mem.length) :
    Converter.renderGlyph d mem g x y width
      = some ((List.range (g.height * g.width)).map (glyphStore d mem g x y width)) := by
  apply renderGlyph_eq hd
  unfold Readable
  rcases Nat.eq_zero_or_pos (g.width * g.height) with h0 | h0
  · left; exact h0
  · right
    have h1 := hin (g.height * g.width - 1) (by rw [Nat.mul_comm]; omega)
    have h2 : g.height * g.width = g.width * g.height := Nat.mul_comm _ _
    rw [h2] at h1
    unfold packedLen
    rcases hd with h | h | h | h <;> subst h <;> omega

theorem decodeN_new {d : Nat} (hd : ValidDepth d) (mem : List Nat) (off n : Nat)
    (hin : ∀ k, k < n → off + k * d / 8 < mem.length) :
    BitDecoder.decodeN d mem n (BitDecoder.new off)
      = some ((List.range n).map (peek d mem off),
          { pos := off + n * d / 8, shift := n * d % 8 }) := by
  have h := decodeN_peek hd mem off n 0 (by intro k hk; rw [Nat.zero_add]; exact hin k hk)
  simp only [Nat.zero_mul, Nat.zero_div, Nat.add_zero, Nat.zero_mod, Nat.zero_add] at h
  exact h

theorem sample_scale_le {d : Nat} (hd : ValidDepth d) (s : Nat) (hs : s < 2 ^ d) :
    s * scale d ≤ 255 := by
  have h1 : scale 1 = 255 := by decide
  have h2 : scale 2 = 85 := by decide
  have h4 : scale 4 = 17 := by decide
  have h8 : scale 8 = 1 := by decide
  rcases hd with h | h | h | h <;> subst h
  · rw [h1]; norm_num at hs; omega
  · rw [h2]; norm_num at hs; omega
  · rw [h4]; norm_num at hs; omega
  · rw [h8]; norm_num at hs; omega

theorem glyphStore_pixel {d : Nat} (hd : ValidDepth d) (mem : List Nat) (g : BitmapFontGlyph)
    (x y width : Int) (k : Nat) :
    (glyphStore d mem g x y width k).pixel = peek d mem g.offset k * scale d := by
  have h := sample_scale_le hd _ (peek_lt hd mem g.offset k)
  unfold glyphStore
  simp only []
  exact Nat.mod_eq_of_lt (by omega)

theorem previewValue_eq {d : Nat} (hd : ValidDepth d) (p : Nat) (hp : p < 256) :
    previewValue d p = (p / 2 ^ (8 - d)) * scale d := by
  have h1 : p / 2 ^ (8 - d) < 2 ^ d := by
    rcases hd with h | h | h | h <;> subst h <;> norm_num <;> omega
  have h2 := sample_scale_le hd _ h1
  unfold previewValue
  rw [and_Mask hd, Nat.shiftRight_eq_div_pow, Nat.mod_eq_of_lt h1, Nat.mod_eq_of_lt (by omega)]

theorem decodeN_new_inbounds {d : Nat} (hd : ValidDepth d) (mem : List Nat) (off n : Nat)
    (r : List Nat × BitDecoder) (h : BitDecoder.decodeN d mem n (BitDecoder.new off) = some r) :
    ∀ k, k < n → off + k * d / 8 < mem.length := by
  have h1 : BitDecoder.decodeN d mem n { pos := off + 0 * d / 8, shift := 0 * d % 8 }
      = some r := by
    simp only [Nat.zero_mul, Nat.zero_div, Nat.add_zero, Nat.zero_mod]
    exact h
  intro k hk
  have h2 := decodeN_inbounds hd mem off n 0 r h1 k hk
  rw [Nat.zero_add] at h2
  exact h2

theorem operator_render {d : Nat} (hd : ValidDepth d) (ft : FreeType) (c : Converter)
    (hb : c.bpp = d) (hinit : ft.init_error = 0) (hface : ft.face_error = 0)
    (i : Nat) (r : FT_Glyph)
    (hr : ((codePoints c.first c.last).filterMap (ft.rasterize (c.bpp == 1)))[i]? = some r)
    (x y width : Int) :
    ∃ g : BitmapFontGlyph, (c.operator ft).glyphs[c.glyphs.length + i]? = some g
      ∧ g.width = r.bitmap.width ∧ g.height = r.bitmap.rows
      ∧ g.xOffset = r.left ∧ g.yOffset = 1 - r.top
      ∧ Converter.renderGlyph d (c.operator ft).bitmap g x y width
        = some ((List.range (r.bitmap.rows * r.bitmap.width)).map (fun (k : Nat) =>
            ({ dx := x + ((k % r.bitmap.width : Nat) : Int) + r.left
               dy := y + ((k / r.bitmap.width : Nat) : Int) + (1 - r.top)
               index := (y + ((k / r.bitmap.width : Nat) : Int) + (1 - r.top)) * width
                 + (x + ((k % r.bitmap.width : Nat) : Int) + r.left)
               pixel := sampleAt d r.bitmap (k % r.bitmap.width) (k / r.bitmap.width)
                 * scale d } : Store))) := by
  obtain ⟨hg, hbm⟩ := operator_ok ft c hinit hface
  obtain ⟨g, hgi, hw, hh, _, hxo, hyo, hdec⟩ := convertGlyphs_decode hd c hb _ i r hr
  rw [← hg] at hgi
  rw [← hbm] at hdec
  have hin := decodeN_new_inbounds hd _ _ _ _ hdec
  have hdec2 := decodeN_new hd (c.operator ft).bitmap g.offset (g.width * g.height) hin
  rw [hdec] at hdec2
  simp only [Option.some.injEq, Prod.mk.injEq] at hdec2
  have hsamp := hdec2.1
  have hin2 : ∀ k, k < g.height * g.width →
      g.offset + k * d / 8 < (c.operator ft).bitmap.length := by
    intro k hk
    exact hin k (by rw [Nat.mul_comm]; exact hk)
  refine ⟨g, hgi, hw, hh, hxo, hyo, ?_⟩
  rw [renderGlyph_of_inbounds hd _ g x y width hin2, hh, hw]
  congr 1
  apply List.map_congr_left
  intro k hk
  have hk1 : k < r.bitmap.rows * r.bitmap.width := List.mem_range.mp hk
  have hk2 : k < g.width * g.height := by rw [hw, hh, Nat.mul_comm]; exact hk1
  have hpk : sampleAt d r.bitmap (k % r.bitmap.width) (k / r.bitmap.width)
      = peek d (c.operator ft).bitmap g.offset k := by
    have h1 := congrArg (fun (l : List Nat) => l[k]?) hsamp
    simp only [samples, List.getElem?_map, List.getElem?_range hk1, List.getElem?_range hk2,
      Option.map_some', Option.some.injEq] at h1
    exact h1
  have hpx := glyphStore_pixel hd (c.operator ft).bitmap g x y width k
  rw [hpk, ← hpx]
  unfold glyphStore
  simp only [hw, hxo, hyo]

/-! ## Properties claimed by the specification -/

/-- C1 (round-trip law): for every depth `d` in {1,2,4,8} and every list `xs`, encoding
each element in order with `BitEncoder<d>` on an empty vector, then `commit()`, then
`xs.length` calls of `BitDecoder<d>::decode()` from byte 0 all succeed and return the
list of `x mod 2^d`, in order. -/
theorem roundtrip_encode_decode (d : Nat) (hd : ValidDepth d) (xs : List Nat) :
    (BitDecoder.decodeN d ((BitEncoder.encodeAll d (BitEncoder.new []) xs).commit).data
        xs.length (BitDecoder.new 0)).map Prod.fst
      = some (xs.map (fun x => x % 2 ^ d)) := by
  have hst : StoredAt d ((BitEncoder.encodeAll d (BitEncoder.new []) xs).commit).data 0 xs := by
    have h := storedAt_append hd [] [] xs
    rw [encode_commit_data]
    simpa using h
  have h := decodeN_stored hd hst xs.length 0 (by simp)
  simp only [Nat.zero_mul, Nat.zero_div, Nat.zero_mod, Nat.add_zero, List.drop_zero] at h
  unfold BitDecoder.new
  rw [h]
  rfl

theorem roundtrip_encode_decode_witness :
    ValidDepth 2 ∧
    (BitDecoder.decodeN 2 ((BitEncoder.encodeAll 2 (BitEncoder.new []) [0, 1, 2, 3, 255]).commit).data
        [0, 1, 2, 3, 255].length (BitDecoder.new 0)).map Prod.fst
      = some ([0, 1, 2, 3, 255].map (fun x => x % 2 ^ 2)) :=
  ⟨by decide, roundtrip_encode_decode 2 (by decide) [0, 1, 2, 3, 255]⟩

/-- C2 (per-glyph round trip in the shared bitstream): for every depth `d` in {1,2,4,8}
and every sequence of rasterised glyphs converted in order into one vector, the record
of glyph `i` carries its width and height, and a `BitDecoder<d>` started at that
record's offset of the final vector returns, over `width*height` calls of `decode()`,
exactly the samples of glyph `i` in row-major order, whatever glyphs were converted
before and after it. -/
theorem glyph_roundtrip (d : Nat) (hd : ValidDepth d) (c : Converter) (hb : c.bpp = d)
    (rs : List FT_Glyph) (i : Nat) (r : FT_Glyph) (hr : rs[i]? = some r) :
    ∃ g, (c.convertGlyphs rs).glyphs[c.glyphs.length + i]? = some g ∧
      g.width = r.bitmap.width ∧ g.height = r.bitmap.rows ∧
      (BitDecoder.decodeN d (c.convertGlyphs rs).bitmap (g.width * g.height)
          (BitDecoder.new g.offset)).map Prod.fst = some (samples d r.bitmap) := by
  obtain ⟨g, h1, h2, h3, _, _, _, h4⟩ := convertGlyphs_decode hd c hb rs i r hr
  exact ⟨g, h1, h2, h3, by rw [h4]; rfl⟩

theorem glyph_roundtrip_witness :
    ValidDepth 2 ∧ exampleConverter.bpp = 2 ∧
    [exampleGlyph 66, exampleGlyph 67, exampleGlyph 64][1]? = some (exampleGlyph 67) ∧
    ∃ g, (exampleConverter.convertGlyphs
          [exampleGlyph 66, exampleGlyph 67, exampleGlyph 64]).glyphs[
            exampleConverter.glyphs.length + 1]? = some g ∧
      g.width = (exampleGlyph 67).bitmap.width ∧ g.height = (exampleGlyph 67).bitmap.rows ∧
      (BitDecoder.decodeN 2 (exampleConverter.convertGlyphs
          [exampleGlyph 66, exampleGlyph 67, exampleGlyph 64]).bitmap (g.width * g.height)
          (BitDecoder.new g.offset)).map Prod.fst = some (samples 2 (exampleGlyph 67).bitmap) :=
  ⟨by decide, rfl, rfl,
    glyph_roundtrip 2 (by decide) exampleConverter rfl
      [exampleGlyph 66, exampleGlyph 67, exampleGlyph 64] 1 (exampleGlyph 67) rfl⟩

/-- C3 (byte-length law): for every depth `d` in {1,2,4,8}, `P` calls of `encode` on a
fresh `BitEncoder<d>` followed by `commit()` leave the vector `dst` with exactly
`ceil(P*d/8)` more bytes, `ceil(P*d/8)` being the least `m` with `P*d ≤ 8*m`; with no
call of `encode` the vector is unchanged. -/
theorem byte_length_law (d : Nat) (hd : ValidDepth d) (dst xs : List Nat) :
    ((BitEncoder.encodeAll d (BitEncoder.new dst) xs).commit).data.length
        = dst.length + packedLen d xs.length
      ∧ xs.length * d ≤ 8 * packedLen d xs.length
      ∧ (∀ m, xs.length * d ≤ 8 * m → packedLen d xs.length ≤ m)
      ∧ ((BitEncoder.encodeAll d (BitEncoder.new dst) []).commit).data = dst := by
  refine ⟨?_, ?_, ?_, ?_⟩
  · rw [encode_commit_data, List.length_append, (packed_spec hd xs).1]
  · unfold packedLen; omega
  · intro m hm; unfold packedLen; omega
  · rfl

theorem byte_length_law_witness :
    ValidDepth 4 ∧
    (((BitEncoder.encodeAll 4 (BitEncoder.new [7]) [1, 2, 3]).commit).data.length
        = [7].length + packedLen 4 [1, 2, 3].length
      ∧ [1, 2, 3].length * 4 ≤ 8 * packedLen 4 [1, 2, 3].length
      ∧ (∀ m, [1, 2, 3].length * 4 ≤ 8 * m → packedLen 4 [1, 2, 3].length ≤ m)
      ∧ ((BitEncoder.encodeAll 4 (BitEncoder.new [7]) []).commit).data = [7]) :=
  ⟨by decide, byte_length_law 4 (by decide) [7] [1, 2, 3]⟩

/-- C4 (offset law): for every depth `d` in {1,2,4,8} and every run of `operator()`
that starts with an empty bitstream and no records, each record's offset is the sum of
`ceil(width*height*d/8)` over the records before it (so the first offset is 0), offsets
never decrease along the records, and the final bitstream length is the sum over all
records; when FreeType initialises and the font loads, there is one record per
successfully rasterised glyph, in order, record `i` carries the width and height of
the `i`-th rasterised bitmap, its offset is the sum of `ceil(width_j*height_j*d/8)`
over the rasterised glyphs `j < i`, and the final bitstream length is that sum over
all rasterised glyphs. -/
theorem offset_law (d : Nat) (hd : ValidDepth d) (ft : FreeType) (c : Converter)
    (hb : c.bpp = d) (hbitmap : c.bitmap = []) (hglyphs : c.glyphs = []) :
    (∀ i g, (c.operator ft).glyphs[i]? = some g →
        g.offset = (((c.operator ft).glyphs.take i).map
          (fun g => packedLen d (g.width * g.height))).sum)
      ∧ (∀ g, (c.operator ft).glyphs[0]? = some g → g.offset = 0)
      ∧ (∀ (i j : Nat) (g g' : BitmapFontGlyph), i ≤ j → (c.operator ft).glyphs[i]? = some g →
          (c.operator ft).glyphs[j]? = some g' → g.offset ≤ g'.offset)
      ∧ (c.operator ft).bitmap.length
          = ((c.operator ft).glyphs.map (fun g => packedLen d (g.width * g.height))).sum
      ∧ (ft.init_error = 0 → ft.face_error = 0 →
          (c.operator ft).glyphs.length
              = ((codePoints c.first c.last).filterMap (ft.rasterize (c.bpp == 1))).length
            ∧ (∀ (i : Nat) (r : FT_Glyph),
                ((codePoints c.first c.last).filterMap (ft.rasterize (c.bpp == 1)))[i]? = some r →
                ∃ g, (c.operator ft).glyphs[i]? = some g
                  ∧ g.width = r.bitmap.width ∧ g.height = r.bitmap.rows
                  ∧ g.offset
                      = ((((codePoints c.first c.last).filterMap
                            (ft.rasterize (c.bpp == 1))).take i).map
                          (fun r => packedLen d (r.bitmap.width * r.bitmap.rows))).sum)
            ∧ (c.operator ft).bitmap.length
                = (((codePoints c.first c.last).filterMap (ft.rasterize (c.bpp == 1))).map
                    (fun r => packedLen d (r.bitmap.width * r.bitmap.rows))).sum) := by
  have h0 : WellLaid d c.glyphs c.bitmap.length := by
    rw [hbitmap, hglyphs]; exact ⟨rfl, by intro i g h; simp at h⟩
  obtain ⟨hlen, hoff⟩ := WellLaid_operator hd ft c hb h0
  refine ⟨hoff, ?_, ?_, hlen, ?_⟩
  · intro g hg
    rw [hoff 0 g hg]; rfl
  · intro i j g g' hij hi hj
    rw [hoff i g hi, hoff j g' hj, List.map_take, List.map_take]
    exact sum_take_le _ i j hij
  · intro hinit hface
    obtain ⟨hgl, _⟩ := operator_ok ft c hinit hface
    have hbytes := convertGlyphs_bytes d c hglyphs
      ((codePoints c.first c.last).filterMap (ft.rasterize (c.bpp == 1)))
    rw [← hgl] at hbytes
    refine ⟨?_, ?_, ?_⟩
    · rw [hgl, convertGlyphs_glyphs_length, hglyphs]; simp
    · intro i r hr
      obtain ⟨g, hg, hw, hh, _⟩ := convertGlyphs_record c _ i r hr
      rw [hglyphs] at hg
      simp only [List.length_nil, Nat.zero_add] at hg
      rw [← hgl] at hg
      refine ⟨g, hg, hw, hh, ?_⟩
      rw [hoff i g hg, List.map_take, hbytes, List.map_take]
    · rw [hlen, hbytes]

theorem offset_law_witness :
    ValidDepth 2 ∧ exampleConverter.bpp = 2 ∧ exampleConverter.bitmap = [] ∧
    exampleConverter.glyphs = [] ∧ exampleFreeType.init_error = 0 ∧
    exampleFreeType.face_error = 0
      ∧ ((codePoints exampleConverter.first exampleConverter.last).filterMap
          (exampleFreeType.rasterize (exampleConverter.bpp == 1))).map
            (fun r => packedLen 2 (r.bitmap.width * r.bitmap.rows)) = [2, 3]
      ∧ (exampleConverter.operator exampleFreeType).glyphs.length
          = ((codePoints exampleConverter.first exampleConverter.last).filterMap
              (exampleFreeType.rasterize (exampleConverter.bpp == 1))).length
      ∧ (exampleConverter.operator exampleFreeType).bitmap.length
          = (((codePoints exampleConverter.first exampleConverter.last).filterMap
              (exampleFreeType.rasterize (exampleConverter.bpp == 1))).map
                (fun r => packedLen 2 (r.bitmap.width * r.bitmap.rows))).sum :=
  ⟨by decide, rfl, rfl, rfl, rfl, rfl, by decide,
    ((offset_law 2 (by decide) exampleFreeType exampleConverter rfl rfl rfl).2.2.2.2
      rfl rfl).1,
    ((offset_law 2 (by decide) exampleFreeType exampleConverter rfl rfl rfl).2.2.2.2
      rfl rfl).2.2⟩

/-- C5 (bit layout): for every depth `d` in {1,2,4,8} with `k = 8/d`, byte `j` of the
output of encode-all-then-commit is the sum over `i < k` of
`(s_(j*k+i) mod 2^d) << (i*d)`, a sample index past the end counting as 0; eight
samples 1 at depth 1 give the byte 0xFF and samples 0,1,2,3 at depth 2 give 0xE4. -/
theorem bit_layout (d : Nat) (hd : ValidDepth d) (xs : List Nat) (j : Nat)
    (hj : j < packedLen d xs.length) :
    (((BitEncoder.encodeAll d (BitEncoder.new []) xs).commit).data)[j]?
        = some (∑ i in Finset.range (8 / d), ((xs.getD (j * (8 / d) + i) 0 % 2 ^ d) <<< (i * d)))
      ∧ ((BitEncoder.encodeAll 1 (BitEncoder.new []) [1, 1, 1, 1, 1, 1, 1, 1]).commit).data = [0xFF]
      ∧ ((BitEncoder.encodeAll 2 (BitEncoder.new []) [0, 1, 2, 3]).commit).data = [0xE4] := by
  refine ⟨?_, by decide, by decide⟩
  rw [encode_commit_data, List.nil_append, packed_getElem hd xs j hj, byte_layout_sum hd]

theorem bit_layout_witness :
    ValidDepth 4 ∧ 1 < packedLen 4 [1, 2, 3].length ∧
    ((((BitEncoder.encodeAll 4 (BitEncoder.new []) [1, 2, 3]).commit).data)[1]?
        = some (∑ i in Finset.range (8 / 4), (([1, 2, 3].getD (1 * (8 / 4) + i) 0 % 2 ^ 4) <<< (i * 4)))
      ∧ ((BitEncoder.encodeAll 1 (BitEncoder.new []) [1, 1, 1, 1, 1, 1, 1, 1]).commit).data = [0xFF]
      ∧ ((BitEncoder.encodeAll 2 (BitEncoder.new []) [0, 1, 2, 3]).commit).data = [0xE4]) :=
  ⟨by decide, by decide, bit_layout 4 (by decide) [1, 2, 3] 1 (by decide)⟩

/-- C6 (skip-on-failure): for every range and every rasterizer, the loop of
`operator()` leaves the converter exactly as converting, in ascending order, only the
code points that rasterise successfully; an iteration whose rasterisation fails
changes nothing; the number of records added is the number of successes; and the
iteration for `last` is always run, on whatever the earlier iterations produced. -/
theorem skip_on_failure (ft : FreeType) (c : Converter) :
    c.convertRange ft
        = c.convertGlyphs ((codePoints c.first c.last).filterMap (ft.rasterize (c.bpp == 1)))
      ∧ (∀ (c' : Converter) (i : Int),
          ft.rasterize (c'.bpp == 1) i = none → c'.step ft i = c')
      ∧ (c.convertRange ft).glyphs.length = c.glyphs.length
          + ((codePoints c.first c.last).filterMap (ft.rasterize (c.bpp == 1))).length
      ∧ (c.first ≤ c.last → c.convertRange ft
          = ((codePoints c.first (c.last - 1)).foldl (Converter.step ft) c).step ft c.last) := by
  have h1 := steps_eq_convertGlyphs ft (codePoints c.first c.last) c
  refine ⟨h1, ?_, ?_, ?_⟩
  · intro c' i h
    unfold Converter.step
    rw [h]
  · unfold Converter.convertRange
    rw [h1, convertGlyphs_glyphs_length]
  · intro h
    unfold Converter.convertRange
    rw [codePoints_snoc _ _ h, List.foldl_append]
    rfl

/-- C7, refuted as stated: with the sample rasterizer, which fails for code point 65,
converting the range 65..67 yields 2 records, not `last - first + 1 = 3`, and no record
at index `67 - first` although code point 67 rasterises. -/
theorem positional_indexing_counterexample :
    exampleConverter.first ≤ exampleConverter.last
      ∧ (exampleConverter.convertRange exampleFreeType).glyphs.length
          ≠ (exampleConverter.last - exampleConverter.first + 1).toNat
      ∧ (exampleFreeType.rasterize (exampleConverter.bpp == 1) 67).isSome = true
      ∧ (exampleConverter.convertRange exampleFreeType).glyphs[
          (67 - exampleConverter.first).toNat]? = none := by
  decide

/-- C7, amended: when the converter starts without records and every code point of
`[first, last]` rasterises successfully, the loop of `operator()` leaves one record per
code point of the range, `last - first + 1` of them when `first ≤ last`, and the record
at index `c - first` carries the metrics of the glyph of code point `c`. -/
theorem positional_indexing_of_all_rasterised (ft : FreeType) (c : Converter)
    (hglyphs : c.glyphs = [])
    (hall : ∀ i, c.first ≤ i → i ≤ c.last → ft.rasterize (c.bpp == 1) i ≠ none) :
    (c.convertRange ft).glyphs.length = (c.last + 1 - c.first).toNat
      ∧ (c.first ≤ c.last → ((c.convertRange ft).glyphs.length : Int) = c.last - c.first + 1)
      ∧ ∀ i, c.first ≤ i → i ≤ c.last →
          ∃ r g, ft.rasterize (c.bpp == 1) i = some r ∧
            (c.convertRange ft).glyphs[(i - c.first).toNat]? = some g ∧
            g.width = r.bitmap.width ∧ g.height = r.bitmap.rows ∧
            g.xAdvance = r.advance_x >>> 6 ∧ g.xOffset = r.left ∧ g.yOffset = 1 - r.top := by
  have hall' : ∀ a ∈ codePoints c.first c.last, ft.rasterize (c.bpp == 1) a ≠ none := by
    intro a ha
    obtain ⟨h1, h2⟩ := (mem_codePoints _ _ _).1 ha
    exact hall a h1 h2
  have heq := steps_eq_convertGlyphs ft (codePoints c.first c.last) c
  have hlen : (c.convertRange ft).glyphs.length = (c.last + 1 - c.first).toNat := by
    unfold Converter.convertRange
    rw [heq, convertGlyphs_glyphs_length, filterMap_length_of_all _ _ hall', hglyphs]
    simp [codePoints]
  refine ⟨hlen, ?_, ?_⟩
  · intro h
    rw [hlen]
    omega
  · intro i h1 h2
    obtain ⟨r, hr⟩ := Option.ne_none_iff_exists'.1 (hall i h1 h2)
    have hk := filterMap_getElem (ft.rasterize (c.bpp == 1)) _ hall' _ i
      (codePoints_getElem c.first c.last i h1 h2)
    rw [hr] at hk
    obtain ⟨g, hg, hrest⟩ := convertGlyphs_record c _ _ r hk
    rw [hglyphs] at hg
    simp only [List.length_nil, Nat.zero_add] at hg
    refine ⟨r, g, hr, ?_, hrest⟩
    unfold Converter.convertRange
    rw [heq]
    exact hg

theorem positional_indexing_of_all_rasterised_witness :
    ({ exampleConverter with first := 66 }.convertRange exampleFreeType).glyphs.length
      = (({ exampleConverter with first := 66 } : Converter).last + 1
          - ({ exampleConverter with first := 66 } : Converter).first).toNat :=
  (positional_indexing_of_all_rasterised exampleFreeType { exampleConverter with first := 66 }
    rfl (by
      intro i h1 h2
      have h3 : (66 : Int) ≤ i := h1
      have h4 : ¬ i = 65 := by omega
      simp [exampleFreeType, h4])).1

/-- C8 (source-pixel reading and quantisation): for every depth `d` in {1,2,4,8} and
every bitmap, `convertBitmap<d>` appends to `dst` exactly what encoding the
`rows * width` samples in row-major order and committing appends; for `d` in {2,4,8}
the sample at `(x, y)` is `buffer[y*pitch + x] >> (8 - d)`, is below `2^d` and is left
unchanged by the encoder mask; for `d = 1` it is 1 when bit `0x80 >> (x mod 8)` of
`buffer[y*pitch + x/8]` is set and 0 otherwise; a buffer that differs only in bytes
that are not read for a pixel gives the same output. -/
theorem convertBitmap_reads (d : Nat) (hd : ValidDepth d) (bm : FT_Bitmap) (dst : List Nat) :
    Converter.convertBitmap d bm dst
        = ((BitEncoder.encodeAll d (BitEncoder.new dst) (samples d bm)).commit).data
      ∧ (samples d bm).length = bm.width * bm.rows
      ∧ (∀ x y, x < bm.width → y < bm.rows → d ≠ 1 →
          (samples d bm)[y * bm.width + x]?
              = some (bm.byteAt ((y : Int) * bm.pitch + (x : Int)) >>> (8 - d))
            ∧ bm.byteAt ((y : Int) * bm.pitch + (x : Int)) >>> (8 - d) < 2 ^ d
            ∧ ((bm.byteAt ((y : Int) * bm.pitch + (x : Int)) >>> (8 - d)) % 256) &&& Mask d
                = bm.byteAt ((y : Int) * bm.pitch + (x : Int)) >>> (8 - d))
      ∧ (∀ x y, x < bm.width → y < bm.rows → d = 1 →
          (samples d bm)[y * bm.width + x]?
            = some (if (bm.byteAt ((y : Int) * bm.pitch + ((x / 8 : Nat) : Int))).testBit
                (7 - x % 8) then 1 else 0))
      ∧ (∀ bm' : FT_Bitmap, bm'.rows = bm.rows → bm'.width = bm.width →
          bm'.pitch = bm.pitch →
          (∀ x y, x < bm.width → y < bm.rows →
            bm'.byteAt (readIndex d bm x y) = bm.byteAt (readIndex d bm x y)) →
          Converter.convertBitmap d bm' dst = Converter.convertBitmap d bm dst) := by
  refine ⟨convertBitmap_eq d bm dst, ?_, ?_, ?_, ?_⟩
  · simp [samples, Nat.mul_comm]
  · intro x y hx hy h1
    have hs : sampleAt d bm x y = bm.byteAt ((y : Int) * bm.pitch + (x : Int)) >>> (8 - d) := by
      simp only [sampleAt, if_neg h1, Nat.shiftRight_eq_div_pow]
    have hlt := sampleAt_lt hd bm x y
    rw [hs] at hlt
    refine ⟨by rw [samples_getElem d bm x y hx hy, hs], hlt, ?_⟩
    rw [and_Mask hd, Nat.mod_eq_of_lt hlt]
  · intro x y hx hy h1
    rw [samples_getElem d bm x y hx hy]
    simp only [sampleAt, h1, if_true]
  · intro bm' hr hw hp h
    rw [convertBitmap_eq, convertBitmap_eq, samples_congr d bm bm' hr hw hp h]

theorem convertBitmap_reads_witness :
    ValidDepth 2
      ∧ Converter.convertBitmap 2 exampleGray [9]
          = ((BitEncoder.encodeAll 2 (BitEncoder.new [9]) (samples 2 exampleGray)).commit).data
      ∧ samples 2 exampleGray = [0, 1, 2, 3]
      ∧ Converter.convertBitmap 2 exampleGray [9] = [9, 0xE4] :=
  ⟨by decide, (convertBitmap_reads 2 (by decide) exampleGray [9]).1, by decide, by decide⟩

/-- C9, refuted as stated: for the one-record list with `xAdvance = -3` and
`yAdvance = 12` the canvas size `width * height` is -36, the allocation of the image
throws, and `renderFont` allocates no canvas and makes no store. -/
theorem atlas_layout_counterexample :
    exampleBackward.glyphs.map (fun g => g.xAdvance) = [-3]
      ∧ exampleBackward.yAdvance = 12
      ∧ exampleBackward.renderFont.width * exampleBackward.renderFont.height = -36
      ∧ exampleBackward.renderFont.allocated = false
      ∧ exampleBackward.renderFont.stores = none := by
  decide

/-- C9, amended: for every list of records and every `yAdvance`, `renderFont` computes
the width as the sum of all `xAdvance` and the height as `yAdvance`, and allocates the
canvas exactly when `width * height ≥ 0`, in particular whenever the sum of `xAdvance`
is non-negative (otherwise the allocation throws and no store is made); it uses the
vertical origin `y0` with `-y0` the least of 0 and all `yOffset`; at a depth in
{1,2,4,8} the stores it makes are, glyph after glyph and in row-major order within a
glyph, at column `origin_i + sx + xOffset_i` and row `y0 + sy + yOffset_i`, where
`origin_i` is the sum of `xAdvance` of the records before `i`, each at image index
`row * width + column`; the stores are made whenever the canvas is allocated and every
record's samples lie inside the bitstream.  Records with `xAdvance` 6, 7, 5 and
`yAdvance` 12 give an allocated canvas 18 wide and 12 high. -/
theorem atlas_layout (c : Converter) :
    c.renderFont.width = (c.glyphs.map (fun g => g.xAdvance)).sum
      ∧ c.renderFont.height = (c.yAdvance : Int)
      ∧ (c.renderFont.allocated = true ↔ 0 ≤ c.renderFont.width * c.renderFont.height)
      ∧ (0 ≤ (c.glyphs.map (fun g => g.xAdvance)).sum → c.renderFont.allocated = true)
      ∧ (c.renderFont.allocated = false → c.renderFont.stores = none)
      ∧ (-c.renderFont.y ≤ 0 ∧ (∀ g ∈ c.glyphs, -c.renderFont.y ≤ g.yOffset)
          ∧ (-c.renderFont.y = 0 ∨ ∃ g ∈ c.glyphs, -c.renderFont.y = g.yOffset))
      ∧ (ValidDepth c.bpp →
          (c.renderFont.allocated = true →
            (∀ g ∈ c.glyphs, Readable c.bpp c.bitmap.length g) → c.renderFont.stores ≠ none)
          ∧ ∀ ss, c.renderFont.stores = some ss →
              ss.map (fun s => (s.dx, s.dy))
                = (List.range c.glyphs.length).flatMap (fun i =>
                    match c.glyphs[i]? with
                    | none => []
                    | some g =>
                      (List.range g.height).flatMap (fun (sy : Nat) =>
                        (List.range g.width).map (fun (sx : Nat) =>
                          (((c.glyphs.take i).map (fun g => g.xAdvance)).sum
                              + (sx : Int) + g.xOffset,
                            c.renderFont.y + (sy : Int) + g.yOffset))))
              ∧ ∀ s ∈ ss, s.index = s.dy * c.renderFont.width + s.dx)
      ∧ (exampleAtlas.glyphs.map (fun g => g.xAdvance) = [6, 7, 5]
          ∧ exampleAtlas.yAdvance = 12
          ∧ exampleAtlas.renderFont.width = 18 ∧ exampleAtlas.renderFont.height = 12
          ∧ exampleAtlas.renderFont.allocated = true) := by
  obtain ⟨hw, hh, hy⟩ := renderFont_canvas c
  obtain ⟨m1, m2, m3⟩ := foldl_min_spec (c.glyphs.map (fun g => g.yOffset)) 0
  have halloc : c.renderFont.allocated = true
      ↔ 0 ≤ c.renderFont.width * c.renderFont.height := by
    rw [renderFont_allocated, decide_eq_true_eq]
  refine ⟨hw, hh, halloc, ?_, ?_, ⟨?_, ?_, ?_⟩, ?_, by decide⟩
  · intro hsum
    rw [halloc, hw, hh]
    exact Int.mul_nonneg hsum (Int.ofNat_nonneg _)
  · intro hfalse
    have hneg : ¬ 0 ≤ c.renderFont.width * c.renderFont.height := by
      intro h
      rw [halloc.2 h] at hfalse
      cases hfalse
    rw [renderFont_stores_eq, if_neg hneg]
  · rw [hy, Int.neg_neg]; exact m1
  · intro g hg
    rw [hy, Int.neg_neg]
    exact m2 _ (List.mem_map_of_mem _ hg)
  · rw [hy, Int.neg_neg]
    rcases m3 with h | ⟨a, ha, h⟩
    · left; exact h
    · right
      obtain ⟨g, hg, rfl⟩ := List.mem_map.1 ha
      exact ⟨g, hg, h⟩
  · intro hd
    refine ⟨?_, ?_⟩
    · intro ha hr
      rw [renderFont_stores hd c rfl hr (halloc.1 ha)]
      exact Option.some_ne_none _
    · intro ss hss
      obtain ⟨mem, hmem⟩ := renderFont_stores_layout hd c rfl ss hss
      have hcoords := layoutStores_coords c.bpp mem c.renderFont.y c.renderFont.width 0
        c.glyphs
      simp only [Int.zero_add] at hcoords
      rw [hmem]
      exact ⟨hcoords, layoutStores_index _ _ _ _ _ _⟩

theorem atlas_layout_witness :
    ValidDepth exampleAtlas.bpp
      ∧ exampleAtlas.renderFont.allocated = true
      ∧ (∀ g ∈ exampleAtlas.glyphs, Readable exampleAtlas.bpp exampleAtlas.bitmap.length g)
      ∧ exampleAtlas.renderFont.stores ≠ none :=
  ⟨by decide, by decide, by decide,
    ((atlas_layout exampleAtlas).2.2.2.2.2.2.1 (by decide)).1 (by decide) (by decide)⟩

/-- C10 (intensity reconstitution): for every depth `d` in {1,2,4,8} the scale
`255 / (2^d - 1)` of `renderGlyph` is an exact quotient, with values 255, 85, 17 and 1;
for every sample `s < 2^d` the product `s * scale` is at most 255, so the store into the
8-bit pixel keeps it; 0 maps to 0 and `2^d - 1` to 255; at depth 8 the map is the
identity and at depth 1 it sends 0 to 0 and 1 to 255.  On the renderer itself: for every
vector `mem`, every record `g` whose samples lie inside `mem` and every origin,
`renderGlyph<d>` makes `g.height * g.width` stores, the samples `vs` that the same number
of `decode()` calls from `g.offset` return are all below `2^d`, and the pixel of the
`k`-th store is exactly `vs[k] * scale`, at most 255, 0 for the sample 0, 255 for the
sample `2^d - 1`, the sample itself at depth 8, and 0 or 255 at depth 1. -/
theorem intensity_reconstitution (d : Nat) (hd : ValidDepth d) :
    255 % (2 ^ d - 1) = 0
      ∧ scale d = 255 / (2 ^ d - 1)
      ∧ scale d * (2 ^ d - 1) = 255
      ∧ scale 1 = 255 ∧ scale 2 = 85 ∧ scale 4 = 17 ∧ scale 8 = 1
      ∧ (∀ s, s < 2 ^ d → s * scale d ≤ 255 ∧ (s * scale d) % 256 = s * scale d)
      ∧ (0 * scale d) % 256 = 0
      ∧ ((2 ^ d - 1) * scale d) % 256 = 255
      ∧ (∀ s, s < 2 ^ 8 → (s * scale 8) % 256 = s)
      ∧ (0 * scale 1) % 256 = 0 ∧ (1 * scale 1) % 256 = 255
      ∧ (∀ (mem : List Nat) (g : BitmapFontGlyph) (x y width : Int),
          Readable d mem.length g →
          ∃ (ss : List Store) (vs : List Nat) (dec : BitDecoder),
            Converter.renderGlyph d mem g x y width = some ss
              ∧ BitDecoder.decodeN d mem (g.height * g.width) (BitDecoder.new g.offset)
                  = some (vs, dec)
              ∧ ss.length = g.height * g.width
              ∧ vs.length = g.height * g.width
              ∧ ss.map (fun s => s.pixel) = vs.map (fun v => v * scale d)
              ∧ (∀ v, v ∈ vs → v < 2 ^ d)
              ∧ (∀ (k : Nat) (s : Store) (v : Nat), ss[k]? = some s → vs[k]? = some v →
                  s.pixel = v * scale d
                    ∧ s.pixel ≤ 255
                    ∧ (v = 0 → s.pixel = 0)
                    ∧ (v = 2 ^ d - 1 → s.pixel = 255)
                    ∧ (d = 8 → s.pixel = v)
                    ∧ (d = 1 → (v = 0 ∧ s.pixel = 0) ∨ (v = 1 ∧ s.pixel = 255)))) := by
  have h1 : scale 1 = 255 := by decide
  have h2 : scale 2 = 85 := by decide
  have h4 : scale 4 = 17 := by decide
  have h8 : scale 8 = 1 := by decide
  have hfull : (2 ^ d - 1) * scale d = 255 := by
    rcases hd with h | h | h | h <;> subst h <;> decide
  refine ⟨?_, ?_, ?_, h1, h2, h4, h8, ?_, by simp, ?_, ?_, by simp, by rw [h1], ?_⟩
  · rcases hd with h | h | h | h <;> subst h <;> decide
  · rcases hd with h | h | h | h <;> subst h <;> decide
  · rcases hd with h | h | h | h <;> subst h <;> decide
  · intro s hs
    have h := sample_scale_le hd s hs
    exact ⟨h, Nat.mod_eq_of_lt (by omega)⟩
  · rw [hfull]
  · intro s hs
    rw [h8]; norm_num at hs; omega
  · intro mem g x y width hr
    have hin : ∀ k, k < g.height * g.width → g.offset + k * d / 8 < mem.length :=
      fun k hk => readable_lt hd hr k hk
    refine ⟨(List.range (g.height * g.width)).map (glyphStore d mem g x y width),
      (List.range (g.height * g.width)).map (peek d mem g.offset),
      { pos := g.offset + (g.height * g.width) * d / 8, shift := (g.height * g.width) * d % 8 },
      renderGlyph_eq hd mem g x y width hr, decodeN_new hd mem g.offset _ hin,
      by simp, by simp, ?_, ?_, ?_⟩
    · rw [List.map_map, List.map_map]
      apply List.map_congr_left
      intro k _
      exact glyphStore_pixel hd mem g x y width k
    · intro v hv
      obtain ⟨k, _, hk⟩ := List.mem_map.mp hv
      rw [← hk]
      exact peek_lt hd mem g.offset k
    · intro k s v hs hv
      have hk : k < g.height * g.width := by
        rcases Nat.lt_or_ge k (g.height * g.width) with h | h
        · exact h
        · rw [List.getElem?_eq_none (by simp; exact h)] at hs
          cases hs
      rw [List.getElem?_map, List.getElem?_range hk] at hs hv
      simp only [Option.map_some', Option.some.injEq] at hs hv
      have hp : s.pixel = v * scale d := by
        rw [← hs, ← hv]
        exact glyphStore_pixel hd mem g x y width k
      have hlt : v < 2 ^ d := by
        rw [← hv]
        exact peek_lt hd mem g.offset k
      refine ⟨hp, ?_, ?_, ?_, ?_, ?_⟩
      · rw [hp]; exact sample_scale_le hd v hlt
      · intro h0; rw [hp, h0, Nat.zero_mul]
      · intro hm; rw [hp, hm, hfull]
      · intro h; subst h; rw [hp, h8, Nat.mul_one]
      · intro h; subst h
        rw [hp, h1]
        norm_num at hlt
        omega

theorem intensity_reconstitution_witness :
    ValidDepth 4 ∧ scale 4 * (2 ^ 4 - 1) = 255 ∧ ((2 ^ 4 - 1) * scale 4) % 256 = 255
      ∧ ValidDepth 2
      ∧ Readable 2 exampleAtlas.bitmap.length
          { offset := 1, width := 4, height := 1, xAdvance := 7, xOffset := 1, yOffset := 2 }
      ∧ (Converter.renderGlyph 2 exampleAtlas.bitmap
            { offset := 1, width := 4, height := 1, xAdvance := 7, xOffset := 1, yOffset := 2 }
            6 1 18).map (List.map (fun s => s.pixel)) = some [255, 170, 85, 0]
      ∧ (BitDecoder.decodeN 2 exampleAtlas.bitmap 4 (BitDecoder.new 1)).map Prod.fst
          = some [3, 2, 1, 0]
      ∧ (∃ (ss : List Store) (vs : List Nat),
          Converter.renderGlyph 2 exampleAtlas.bitmap
              { offset := 1, width := 4, height := 1, xAdvance := 7, xOffset := 1, yOffset := 2 }
              6 1 18 = some ss
            ∧ ss.length = 4
            ∧ ss.map (fun s => s.pixel) = vs.map (fun v => v * scale 2)) :=
  ⟨by decide, (intensity_reconstitution 4 (by decide)).2.2.1,
    (intensity_reconstitution 4 (by decide)).2.2.2.2.2.2.2.2.2.1,
    by decide, by decide, by decide, by decide,
    match (intensity_reconstitution 2 (by decide)).2.2.2.2.2.2.2.2.2.2.2.2.2
        exampleAtlas.bitmap
        { offset := 1, width := 4, height := 1, xAdvance := 7, xOffset := 1, yOffset := 2 }
        6 1 18 (by decide) with
    | ⟨ss, vs, _, h1, _, h3, _, h5, _⟩ => ⟨ss, vs, h1, h3, h5⟩⟩

/-- C11 (depth boundary): at depth 8, for every list `xs` of 8-bit values and every
vector `dst`, the `encode` calls append exactly `xs`, one byte per sample, `commit()`
adds nothing, and `xs.length` calls of `decode()` from the first appended byte return
`xs` unchanged; a value that is not 8-bit is appended modulo 256. -/
theorem depth8_identity (xs : List Nat) (h8 : ∀ x ∈ xs, x < 256) (dst : List Nat) :
    (BitEncoder.encodeAll 8 (BitEncoder.new dst) xs).data = dst ++ xs
      ∧ ((BitEncoder.encodeAll 8 (BitEncoder.new dst) xs).commit).data = dst ++ xs
      ∧ (BitDecoder.decodeN 8 ((BitEncoder.encodeAll 8 (BitEncoder.new dst) xs).commit).data
          xs.length (BitDecoder.new dst.length)).map Prod.fst = some xs
      ∧ (∀ ys : List Nat, ((BitEncoder.encodeAll 8 (BitEncoder.new dst) ys).commit).data
          = dst ++ ys.map (fun y => y % 256)) := by
  have hgen : ∀ ys : List Nat, ((BitEncoder.encodeAll 8 (BitEncoder.new dst) ys).commit).data
      = dst ++ ys.map (fun y => y % 256) := by
    intro ys
    rw [encodeAll8_fresh]
    simp [BitEncoder.commit]
  refine ⟨?_, ?_, ?_, hgen⟩
  · rw [encodeAll8_fresh, map_mod_of_lt xs h8]
  · rw [hgen, map_mod_of_lt xs h8]
  · have hd : ValidDepth 8 := by decide
    have hst : StoredAt 8 ((BitEncoder.encodeAll 8 (BitEncoder.new dst) xs).commit).data
        dst.length xs := by
      have h := storedAt_append hd dst [] xs
      rw [encode_commit_data]
      simpa using h
    have h := decodeN_stored hd hst xs.length 0 (by simp)
    simp only [Nat.zero_mul, Nat.zero_div, Nat.zero_mod, Nat.add_zero, List.drop_zero] at h
    unfold BitDecoder.new
    rw [h]
    simp only [Option.map_some']
    congr 1
    exact map_mod_of_lt xs (by simpa using h8)

theorem depth8_identity_witness :
    (∀ x ∈ [0, 7, 200, 255], x < 256)
      ∧ ((BitEncoder.encodeAll 8 (BitEncoder.new [9]) [0, 7, 200, 255]).commit).data
          = [9] ++ [0, 7, 200, 255] :=
  ⟨by decide, (depth8_identity [0, 7, 200, 255] (by decide) [9]).2.1⟩

/-- C12, evaluated on the code: with the command line `-b 2 -f 65 -l 67 font.ttf myfont`
and a FreeType whose initialisation fails, or whose font load fails, `operator()`
leaves the converter untouched and `main` still writes the header `myfont.h` and the
preview image `myfont.bmp`, both made from the empty asset, and returns 0. -/
theorem main_writes_after_failed_init :
    exampleNoFreeType.init_error ≠ 0
      ∧ exampleNoFace.init_error = 0 ∧ exampleNoFace.face_error ≠ 0
      ∧ (∀ (ft : FreeType) (junk : Nat), ft.init_error ≠ 0 ∨ ft.face_error ≠ 0 →
          main ft exampleCommandLine junk
            = { status := some 0
                files :=
                  [FileWrite.header ("myfont.h")
                    { bpp := 2, first := 65, last := 67, bitmap := [], glyphs := [],
                      yAdvance := junk },
                   FileWrite.image ("myfont.bmp")
                    { width := 0, height := (junk : Int), y := 0, allocated := true,
                      stores := some [] }] })
      ∧ (main exampleNoFreeType exampleCommandLine 0).files.length = 2
      ∧ (main exampleNoFace exampleCommandLine 0).files.length = 2 := by
  refine ⟨by decide, by decide, by decide, ?_, by decide, by decide⟩
  intro ft junk h
  unfold main
  simp only [exampleCommandLine]
  rw [operator_failed ft _ h, renderFont_empty _ rfl]
  rfl

/-- C13, refuted as stated: with a rasterizer that initialises, loads the font and
reports a line height of 300 pixels, the asset's `yAdvance` after conversion is 44 and
the preview canvas is 44 rows high. -/
theorem line_height_counterexample :
    exampleTall.init_error = 0 ∧ exampleTall.face_error = 0
      ∧ exampleTall.metrics_height >>> 6 = 300
      ∧ (exampleConverter.operator exampleTall).yAdvance = 44
      ∧ ((exampleConverter.operator exampleTall).yAdvance : Int)
          ≠ exampleTall.metrics_height >>> 6
      ∧ (exampleConverter.operator exampleTall).renderFont.height = 44
      ∧ (exampleConverter.operator exampleTall).renderFont.height
          ≠ exampleTall.metrics_height >>> 6 := by
  decide

/-- C13, amended: when the rasterizer initialises and loads the font, and the line
height `h = metrics.height >> 6` it reports satisfies `0 ≤ h ≤ 255`, the asset's
`yAdvance` after conversion equals `h` and the preview canvas height equals `h`; for
any `h` the 8-bit `yAdvance` is `h mod 256`. -/
theorem line_height_copied (ft : FreeType) (c : Converter) (hinit : ft.init_error = 0)
    (hface : ft.face_error = 0) (h0 : 0 ≤ ft.metrics_height >>> 6)
    (h255 : ft.metrics_height >>> 6 ≤ 255) :
    ((c.operator ft).yAdvance : Int) = ft.metrics_height >>> 6
      ∧ (c.operator ft).renderFont.height = ft.metrics_height >>> 6
      ∧ (∀ ft' : FreeType, ft'.init_error = 0 → ft'.face_error = 0 →
          ((c.operator ft').yAdvance : Int) = (ft'.metrics_height >>> 6) % 256) := by
  have hgen : ∀ ft' : FreeType, ft'.init_error = 0 → ft'.face_error = 0 →
      ((c.operator ft').yAdvance : Int) = (ft'.metrics_height >>> 6) % 256 := by
    intro ft' h1 h2
    rw [operator_yAdvance ft' c h1 h2]
    exact Int.toNat_of_nonneg (Int.emod_nonneg _ (by norm_num))
  have hy : ((c.operator ft).yAdvance : Int) = ft.metrics_height >>> 6 := by
    rw [hgen ft hinit hface]
    exact Int.emod_eq_of_lt h0 (by omega)
  refine ⟨hy, ?_, hgen⟩
  rw [(renderFont_canvas (c.operator ft)).2.1, hy]

theorem line_height_copied_witness :
    exampleFreeType.init_error = 0 ∧ exampleFreeType.face_error = 0
      ∧ 0 ≤ exampleFreeType.metrics_height >>> 6 ∧ exampleFreeType.metrics_height >>> 6 ≤ 255
      ∧ ((exampleConverter.operator exampleFreeType).yAdvance : Int)
          = exampleFreeType.metrics_height >>> 6
      ∧ (exampleConverter.operator exampleFreeType).renderFont.height
          = exampleFreeType.metrics_height >>> 6 :=
  ⟨rfl, rfl, by decide, by decide,
    (line_height_copied exampleFreeType exampleConverter rfl rfl (by decide) (by decide)).1,
    (line_height_copied exampleFreeType exampleConverter rfl rfl (by decide) (by decide)).2.1⟩

/-- C14, refuted as stated: the one-record asset whose 1-by-1 glyph has `xOffset = -1`
gets a canvas 2 wide and 12 high, and `renderFont` makes a store with column -1 at
image index -1. -/
theorem in_canvas_counterexample :
    ValidDepth exampleOverhang.bpp
      ∧ exampleOverhang.renderFont.width = 2 ∧ exampleOverhang.renderFont.height = 12
      ∧ exampleOverhang.renderFont.stores
          = some [{ dx := -1, dy := 0, index := -1, pixel := 255 }]
      ∧ ¬ (∀ ss, exampleOverhang.renderFont.stores = some ss → ∀ s ∈ ss,
            0 ≤ s.dx ∧ s.dx < exampleOverhang.renderFont.width ∧ 0 ≤ s.dy
              ∧ s.dy < exampleOverhang.renderFont.height ∧ 0 ≤ s.index
              ∧ s.index < exampleOverhang.renderFont.width * exampleOverhang.renderFont.height) := by
  refine ⟨by decide, by decide, by decide, by decide, ?_⟩
  intro h
  have h1 := h [{ dx := -1, dy := 0, index := -1, pixel := 255 }] (by decide)
    { dx := -1, dy := 0, index := -1, pixel := 255 } (List.mem_singleton.2 rfl)
  exact absurd h1.1 (by decide)

/-- C14, amended: for every list of records and `yAdvance`, with the canvas computed by
`renderFont`, if every record that has pixels keeps its box inside the canvas
(`0 ≤ origin_i + xOffset_i`, `origin_i + xOffset_i + width_i ≤ width` and
`y0 + yOffset_i + height_i ≤ height`), then every store made satisfies `0 ≤ dx < width`
and `0 ≤ dy < height`, and its index `dy*width + dx` lies in `[0, width*height)`. -/
theorem in_canvas_of_fitting (c : Converter) (hd : ValidDepth c.bpp)
    (hfit : ∀ (i : Nat) (g : BitmapFontGlyph), c.glyphs[i]? = some g →
      0 < g.width → 0 < g.height →
      0 ≤ ((c.glyphs.take i).map (fun g => g.xAdvance)).sum + g.xOffset
        ∧ ((c.glyphs.take i).map (fun g => g.xAdvance)).sum + g.xOffset + (g.width : Int)
            ≤ c.renderFont.width
        ∧ c.renderFont.y + g.yOffset + (g.height : Int) ≤ c.renderFont.height) :
    ∀ ss, c.renderFont.stores = some ss → ∀ s ∈ ss,
      0 ≤ s.dx ∧ s.dx < c.renderFont.width ∧ 0 ≤ s.dy ∧ s.dy < c.renderFont.height
        ∧ s.index = s.dy * c.renderFont.width + s.dx
        ∧ 0 ≤ s.index ∧ s.index < c.renderFont.width * c.renderFont.height := by
  intro ss hss s hs
  obtain ⟨i, g, sx, sy, hg, hsx, hsy, hdx, hdy, hidx⟩ := stores_mem hd c rfl ss hss s hs
  obtain ⟨f1, f2, f3⟩ := hfit i g hg (by omega) (by omega)
  obtain ⟨_, _, hy⟩ := renderFont_canvas c
  have hlow : -c.renderFont.y ≤ g.yOffset := by
    rw [hy, Int.neg_neg]
    exact (foldl_min_spec (c.glyphs.map (fun g => g.yOffset)) 0).2.1 _
      (List.mem_map_of_mem _ (List.getElem?_mem hg))
  have h0 : 0 ≤ s.dx := by omega
  have h1 : s.dx < c.renderFont.width := by omega
  have h2 : 0 ≤ s.dy := by omega
  have h3 : s.dy < c.renderFont.height := by omega
  obtain ⟨h4, h5⟩ := index_in_canvas h0 h1 h2 h3
  exact ⟨h0, h1, h2, h3, hidx, by rw [hidx]; exact h4, by rw [hidx]; exact h5⟩

theorem in_canvas_of_fitting_witness :
    ValidDepth exampleAtlas.bpp
      ∧ exampleAtlas.renderFont.stores ≠ none
      ∧ ∀ ss, exampleAtlas.renderFont.stores = some ss → ∀ s ∈ ss,
          0 ≤ s.dx ∧ s.dx < exampleAtlas.renderFont.width ∧ 0 ≤ s.dy
            ∧ s.dy < exampleAtlas.renderFont.height
            ∧ s.index = s.dy * exampleAtlas.renderFont.width + s.dx
            ∧ 0 ≤ s.index
            ∧ s.index < exampleAtlas.renderFont.width * exampleAtlas.renderFont.height :=
  ⟨by decide, by decide,
    in_canvas_of_fitting exampleAtlas (by decide) (by
      intro i g hg hw hh
      have hi : i < 3 := by
        rcases Nat.lt_or_ge i 3 with h | h
        · exact h
        · rw [List.getElem?_eq_none (by simpa [exampleAtlas] using h)] at hg
          cases hg
      interval_cases i
      · have hg2 : g = BitmapFontGlyph.mk 0 2 2 6 0 (-1) :=
          Option.some.inj (hg.symm.trans rfl)
        subst hg2
        decide
      · have hg2 : g = BitmapFontGlyph.mk 1 4 1 7 1 2 :=
          Option.some.inj (hg.symm.trans rfl)
        subst hg2
        decide
      · have hg2 : g = BitmapFontGlyph.mk 2 0 0 5 0 0 :=
          Option.some.inj (hg.symm.trans rfl)
        subst hg2
        exact absurd hw (by decide))⟩

/-- C15 (no glyph renders above row 0): for every list of records, with the vertical
origin `y0` that `renderFont` uses (`-y0` is the least of 0 and all `yOffset`), the
row `y0 + sy + yOffset` is non-negative for every record and every `sy ≥ 0`, and at a
depth in {1,2,4,8} every store `renderFont` makes has a non-negative row. -/
theorem no_render_above_row0 (c : Converter) :
    (-c.renderFont.y ≤ 0 ∧ (∀ g ∈ c.glyphs, -c.renderFont.y ≤ g.yOffset)
        ∧ (-c.renderFont.y = 0 ∨ ∃ g ∈ c.glyphs, -c.renderFont.y = g.yOffset))
      ∧ (∀ g ∈ c.glyphs, ∀ sy : Nat, 0 ≤ c.renderFont.y + (sy : Int) + g.yOffset)
      ∧ (ValidDepth c.bpp → ∀ ss, c.renderFont.stores = some ss → ∀ s ∈ ss, 0 ≤ s.dy) := by
  obtain ⟨_, _, hy⟩ := renderFont_canvas c
  obtain ⟨m1, m2, m3⟩ := foldl_min_spec (c.glyphs.map (fun g => g.yOffset)) 0
  have hlow : ∀ g ∈ c.glyphs, -c.renderFont.y ≤ g.yOffset := by
    intro g hg
    rw [hy, Int.neg_neg]
    exact m2 _ (List.mem_map_of_mem _ hg)
  refine ⟨⟨?_, hlow, ?_⟩, ?_, ?_⟩
  · rw [hy, Int.neg_neg]; exact m1
  · rw [hy, Int.neg_neg]
    rcases m3 with h | ⟨a, ha, h⟩
    · left; exact h
    · right
      obtain ⟨g, hg, rfl⟩ := List.mem_map.1 ha
      exact ⟨g, hg, h⟩
  · intro g hg sy
    have h1 := hlow g hg
    omega
  · intro hd ss hss s hs
    obtain ⟨i, g, sx, sy, hg, _, _, _, hdy, _⟩ := stores_mem hd c rfl ss hss s hs
    have h1 := hlow g (List.getElem?_mem hg)
    omega

theorem no_render_above_row0_witness :
    ValidDepth exampleAtlas.bpp
      ∧ (∃ g ∈ exampleAtlas.glyphs, g.yOffset < 0)
      ∧ (∀ ss, exampleAtlas.renderFont.stores = some ss → ∀ s ∈ ss, 0 ≤ s.dy)
      ∧ exampleAtlas.renderFont.stores ≠ none :=
  ⟨by decide, by decide, (no_render_above_row0 exampleAtlas).2.2 (by decide), by decide⟩

/-- C16 (commit at a byte boundary, idempotence): for every depth `d` in {1,2,4,8},
`commit()` on a fresh encoder, or after a number of `encode` calls that is a multiple
of `8/d`, appends no byte; `commit()` with the cursor at 0 never appends; and for every
encoder state a second `commit()` changes nothing after the first, which leaves cursor
0 and buffer 0. -/
theorem commit_noop_idempotent (d : Nat) (hd : ValidDepth d) (dst xs : List Nat)
    (hmult : (8 / d) ∣ xs.length) (e : BitEncoder) :
    (BitEncoder.new dst).commit.data = dst
      ∧ ((BitEncoder.encodeAll d (BitEncoder.new dst) xs).commit).data
          = (BitEncoder.encodeAll d (BitEncoder.new dst) xs).data
      ∧ (e.shift = 0 → e.commit.data = e.data)
      ∧ e.commit.commit = e.commit
      ∧ e.commit.shift = 0 ∧ e.commit.buf = 0 := by
  refine ⟨rfl, ?_, ?_, rfl, rfl, rfl⟩
  · obtain ⟨hshift, _, _⟩ := encodeAll_state hd dst xs
    obtain ⟨m, hm⟩ := hmult
    have h0 : (BitEncoder.encodeAll d (BitEncoder.new dst) xs).shift = 0 := by
      rw [hshift, hm]
      rcases hd with h | h | h | h <;> subst h <;> norm_num <;> omega
    unfold BitEncoder.commit
    simp [h0]
  · intro h0
    unfold BitEncoder.commit
    simp [h0]

theorem commit_noop_idempotent_witness :
    ValidDepth 2 ∧ (8 / 2) ∣ [3, 2, 1, 0, 1, 2, 3, 0].length
      ∧ ((BitEncoder.encodeAll 2 (BitEncoder.new [9]) [3, 2, 1, 0, 1, 2, 3, 0]).commit).data
          = (BitEncoder.encodeAll 2 (BitEncoder.new [9]) [3, 2, 1, 0, 1, 2, 3, 0]).data :=
  ⟨by decide, by decide,
    (commit_noop_idempotent 2 (by decide) [9] [3, 2, 1, 0, 1, 2, 3, 0] (by decide)
      (BitEncoder.new [])).2.1⟩

/-- C17 (append-only bitstream): for every depth, every encoder state and every input
value, `encode` and `commit` leave the vector they were given as the beginning of the
vector they return and append at most one byte; `convertBitmap` only appends to its
destination; and converting further glyphs leaves the bitstream converted so far as
the beginning of the new bitstream, so every byte already present keeps its value. -/
theorem append_only (d : Nat) (e : BitEncoder) (value : Nat) :
    (∃ ext, (e.encode d value).data = e.data ++ ext ∧ ext.length ≤ 1)
      ∧ (∃ ext, e.commit.data = e.data ++ ext ∧ ext.length ≤ 1)
      ∧ (∀ (bm : FT_Bitmap) (dst : List Nat), ∃ ext, Converter.convertBitmap d bm dst = dst ++ ext)
      ∧ (∀ (c : Converter) (rs : List FT_Glyph),
          ∃ ext, (c.convertGlyphs rs).bitmap = c.bitmap ++ ext)
      ∧ (∀ (c : Converter) (rs : List FT_Glyph) (j : Nat), j < c.bitmap.length →
          (c.convertGlyphs rs).bitmap[j]? = c.bitmap[j]?)
      ∧ (∀ (ft : FreeType) (c : Converter) (j : Nat), j < c.bitmap.length →
          (c.operator ft).bitmap[j]? = c.bitmap[j]?) := by
  refine ⟨?_, ?_, ?_, ?_, ?_, ?_⟩
  · unfold BitEncoder.encode
    by_cases h : e.shift + d ≥ 8
    · simp only [h, if_true]
      exact ⟨_, rfl, by simp⟩
    · simp only [h, if_false]
      exact ⟨[], by simp, by simp⟩
  · unfold BitEncoder.commit
    by_cases h : e.shift = 0
    · exact ⟨[], by simp [h], by simp⟩
    · exact ⟨[e.buf], by simp [h], by simp⟩
  · intro bm dst
    exact ⟨_, convertBitmap_append d bm dst⟩
  · intro c rs
    exact convertGlyphs_bitmap_extends c rs
  · intro c rs j hj
    obtain ⟨ext, h⟩ := convertGlyphs_bitmap_extends c rs
    rw [h, List.getElem?_append_left hj]
  · intro ft c j hj
    unfold Converter.operator
    split_ifs
    · rfl
    · rfl
    · simp only []
      unfold Converter.convertRange
      rw [steps_eq_convertGlyphs]
      obtain ⟨ext, h⟩ := convertGlyphs_bitmap_extends c
        ((codePoints c.first c.last).filterMap (ft.rasterize (c.bpp == 1)))
      rw [h, List.getElem?_append_left hj]

theorem append_only_witness :
    1 < exampleAtlas.bitmap.length
      ∧ (exampleAtlas.convertGlyphs [exampleGlyph 66, exampleGlyph 67]).bitmap[1]?
          = exampleAtlas.bitmap[1]? :=
  ⟨by decide,
    (append_only 2 (BitEncoder.new []) 0).2.2.2.2.1 exampleAtlas
      [exampleGlyph 66, exampleGlyph 67] 1 (by decide)⟩

/-- C18 (decoder reads stay inside the glyph's own bytes): for every depth `d` in
{1,2,4,8} and every asset built by `operator()` from an empty bitstream and no records,
the `width*height` calls of `decode()` that `renderGlyph` makes for record `i`, started
at the record's offset, all take place, and every byte index they dereference lies in
`[offset, offset + ceil(width*height*d/8))`, which ends inside the bitstream; a record
with zero pixels causes no read. -/
theorem decoder_reads_in_glyph (d : Nat) (hd : ValidDepth d) (ft : FreeType)
    (c : Converter) (hb : c.bpp = d) (hbitmap : c.bitmap = []) (hglyphs : c.glyphs = [])
    (i : Nat) (g : BitmapFontGlyph) (hg : (c.operator ft).glyphs[i]? = some g) :
    g.offset + packedLen d (g.width * g.height) ≤ (c.operator ft).bitmap.length
      ∧ (BitDecoder.readsN d (c.operator ft).bitmap (g.width * g.height)
          (BitDecoder.new g.offset)).length = g.width * g.height
      ∧ (∀ p ∈ BitDecoder.readsN d (c.operator ft).bitmap (g.width * g.height)
            (BitDecoder.new g.offset),
          g.offset ≤ p ∧ p < g.offset + packedLen d (g.width * g.height)
            ∧ p < (c.operator ft).bitmap.length)
      ∧ (g.width * g.height = 0 →
          BitDecoder.readsN d (c.operator ft).bitmap (g.width * g.height)
            (BitDecoder.new g.offset) = [])
      ∧ (∀ x y width : Int,
          Converter.renderGlyph d (c.operator ft).bitmap g x y width ≠ none) := by
  have h0 : WellLaid d c.glyphs c.bitmap.length := by
    rw [hbitmap, hglyphs]; exact ⟨rfl, by intro i g h; simp at h⟩
  have hbound : g.offset + packedLen d (g.width * g.height) ≤ (c.operator ft).bitmap.length :=
    WellLaid_bound (WellLaid_operator hd ft c hb h0) i g hg
  have hread : Readable d (c.operator ft).bitmap.length g := Or.inr hbound
  have hin : ∀ k, k < g.width * g.height →
      g.offset + (0 + k) * d / 8 < (c.operator ft).bitmap.length := by
    intro k hk
    rw [Nat.zero_add]
    exact readable_lt hd hread k (by rw [Nat.mul_comm]; exact hk)
  have htrace := readsN_eq hd (c.operator ft).bitmap g.offset (g.width * g.height) 0 hin
  simp only [Nat.zero_mul, Nat.zero_div, Nat.zero_mod, Nat.add_zero, Nat.zero_add] at htrace
  have hnew : BitDecoder.new g.offset = { pos := g.offset, shift := 0 } := rfl
  rw [hnew, htrace]
  refine ⟨hbound, by simp, ?_, ?_, ?_⟩
  · intro p hp
    simp only [List.mem_map, List.mem_range] at hp
    obtain ⟨k, hk, rfl⟩ := hp
    have h1 : k * d / 8 < packedLen d (g.width * g.height) := by
      unfold packedLen
      rcases hd with h | h | h | h <;> subst h <;> omega
    omega
  · intro hz
    rw [hz]
    rfl
  · intro x y width
    rw [renderGlyph_eq hd _ g x y width hread]
    exact Option.some_ne_none _

theorem decoder_reads_in_glyph_witness :
    ValidDepth 2 ∧ exampleConverter.bpp = 2 ∧ exampleConverter.bitmap = []
      ∧ exampleConverter.glyphs = []
      ∧ (exampleConverter.operator exampleFreeType).glyphs[1]?
          = some (BitmapFontGlyph.mk 2 5 2 7 1 (-2))
      ∧ BitDecoder.readsN 2 (exampleConverter.operator exampleFreeType).bitmap (5 * 2)
          (BitDecoder.new 2) = [2, 2, 2, 2, 3, 3, 3, 3, 4, 4]
      ∧ (∀ p ∈ BitDecoder.readsN 2 (exampleConverter.operator exampleFreeType).bitmap (5 * 2)
            (BitDecoder.new 2),
          2 ≤ p ∧ p < 2 + packedLen 2 (5 * 2)
            ∧ p < (exampleConverter.operator exampleFreeType).bitmap.length) :=
  ⟨by decide, rfl, rfl, rfl, by decide, by decide,
    (decoder_reads_in_glyph 2 (by decide) exampleFreeType exampleConverter rfl rfl rfl 1
      (BitmapFontGlyph.mk 2 5 2 7 1 (-2)) (by decide)).2.2.1⟩

/-- C19 (quantise-then-reconstitute error bound): for every depth `d` in {2,4,8} and
all source intensities `p ≤ q` in [0,255], the preview value is
`r(p) = (p >> (8-d)) * (255 / (2^d - 1))`, differs from `p` by less than `2^(8-d)`,
satisfies `r(p) ≤ r(q)`, `r(0) = 0` and `r(255) = 255`, and at `d = 8` is `p`.  The
preview value is what the program produces: when `operator()` of a converter of depth
`d` has rasterised a glyph `r` as its `i`-th success, `renderGlyph<d>` of the record it
emitted, read from the vector it filled, makes `rows * width` stores, and the store for
column `sx`, row `sy` goes to `(x + sx + left, y + sy + 1 - top)` with the pixel `r(p)`,
`p` being the byte `buffer[sy * pitch + sx]` of the source bitmap, so that this pixel
differs from `p` by less than `2^(8-d)`. -/
theorem quantise_error_bound (d : Nat) (hd : d = 2 ∨ d = 4 ∨ d = 8) (p q : Nat)
    (hp : p < 256) (hq : q < 256) (hpq : p ≤ q) :
    previewValue d p = (p >>> (8 - d)) * (255 / (2 ^ d - 1))
      ∧ previewValue d p < p + 2 ^ (8 - d)
      ∧ p < previewValue d p + 2 ^ (8 - d)
      ∧ previewValue d p ≤ previewValue d q
      ∧ previewValue d 0 = 0
      ∧ previewValue d 255 = 255
      ∧ (d = 8 → previewValue d p = p)
      ∧ (∀ (ft : FreeType) (c : Converter) (i : Nat) (r : FT_Glyph) (x y width : Int),
          c.bpp = d → ft.init_error = 0 → ft.face_error = 0 →
          ((codePoints c.first c.last).filterMap (ft.rasterize (c.bpp == 1)))[i]? = some r →
          ∃ (g : BitmapFontGlyph) (ss : List Store),
            (c.operator ft).glyphs[c.glyphs.length + i]? = some g
              ∧ Converter.renderGlyph d (c.operator ft).bitmap g x y width = some ss
              ∧ ss.length = r.bitmap.rows * r.bitmap.width
              ∧ (∀ (sx sy : Nat), sx < r.bitmap.width → sy < r.bitmap.rows →
                  ∃ s : Store, ss[sy * r.bitmap.width + sx]? = some s
                    ∧ s.dx = x + (sx : Int) + r.left
                    ∧ s.dy = y + (sy : Int) + (1 - r.top)
                    ∧ s.pixel
                      = previewValue d (r.bitmap.byteAt ((sy : Int) * r.bitmap.pitch + (sx : Int)))
                    ∧ s.pixel
                      < r.bitmap.byteAt ((sy : Int) * r.bitmap.pitch + (sx : Int)) + 2 ^ (8 - d)
                    ∧ r.bitmap.byteAt ((sy : Int) * r.bitmap.pitch + (sx : Int))
                      < s.pixel + 2 ^ (8 - d))) := by
  have hv : ValidDepth d := by
    rcases hd with h | h | h <;> subst h <;> decide
  have hne : d ≠ 1 := by
    rcases hd with h | h | h <;> subst h <;> decide
  have h2 : scale 2 = 85 := by decide
  have h4 : scale 4 = 17 := by decide
  have h8 : scale 8 = 1 := by decide
  have hval : ∀ t, t < 256 → previewValue d t = (t / 2 ^ (8 - d)) * (255 / (2 ^ d - 1)) := by
    intro t ht
    rw [previewValue_eq hv t ht]
    rcases hd with h | h | h <;> subst h
    · rw [h2]; norm_num
    · rw [h4]; norm_num
    · rw [h8]; norm_num
  have hbound : ∀ t, t < 256 →
      previewValue d t < t + 2 ^ (8 - d) ∧ t < previewValue d t + 2 ^ (8 - d) := by
    intro t ht
    rw [hval t ht]
    rcases hd with h | h | h <;> subst h <;> norm_num <;> omega
  refine ⟨?_, (hbound p hp).1, (hbound p hp).2, ?_, ?_, ?_, ?_, ?_⟩
  · rw [hval p hp, Nat.shiftRight_eq_div_pow]
  · rw [hval p hp, hval q hq]
    rcases hd with h | h | h <;> subst h <;> norm_num <;> omega
  · rw [hval 0 (by norm_num)]
    rcases hd with h | h | h <;> subst h <;> norm_num
  · rw [hval 255 (by norm_num)]
    rcases hd with h | h | h <;> subst h <;> norm_num
  · intro h8d
    rw [hval p hp]
    subst h8d
    norm_num
  · intro ft c i r x y width hb hinit hface hr
    obtain ⟨g, hgi, _, _, _, _, hrender⟩ :=
      operator_render hv ft c hb hinit hface i r hr x y width
    refine ⟨g, _, hgi, hrender, by simp, ?_⟩
    intro sx sy hx hy
    obtain ⟨hk, hm, hq⟩ := index_rowmajor hx hy
    have hbyte := byteAt_lt r.bitmap ((sy : Int) * r.bitmap.pitch + (sx : Int))
    have hpix : sampleAt d r.bitmap sx sy * scale d
        = previewValue d (r.bitmap.byteAt ((sy : Int) * r.bitmap.pitch + (sx : Int))) := by
      rw [previewValue_eq hv _ hbyte]
      unfold sampleAt
      rw [if_neg hne]
    refine ⟨_, by rw [List.getElem?_map, List.getElem?_range hk]; rfl, ?_, ?_, ?_, ?_, ?_⟩
    · simp only [hm]
    · simp only [hq]
    · simp only [hm, hq]
      exact hpix
    · simp only [hm, hq]
      rw [hpix]
      exact (hbound _ hbyte).1
    · simp only [hm, hq]
      rw [hpix]
      exact (hbound _ hbyte).2

theorem quantise_error_bound_witness :
    (4 = 2 ∨ 4 = 4 ∨ 4 = 8) ∧ 100 < 256 ∧ 200 < 256 ∧ 100 ≤ 200
      ∧ previewValue 4 100 < 100 + 2 ^ (8 - 4) ∧ 100 < previewValue 4 100 + 2 ^ (8 - 4)
      ∧ previewValue 4 100 ≤ previewValue 4 200
      ∧ (2 = 2 ∨ 2 = 4 ∨ 2 = 8)
      ∧ (exampleConverter.operator exampleFreeType).glyphs.map
          (fun g => (Converter.renderGlyph 2 (exampleConverter.operator exampleFreeType).bitmap
            g 0 0 0).map (List.map (fun s => s.pixel)))
          = [some [0, 0, 85, 85, 0, 85, 85, 170],
             some [0, 0, 85, 85, 170, 0, 85, 85, 170, 170]]
      ∧ (∃ (g : BitmapFontGlyph) (ss : List Store),
          (exampleConverter.operator exampleFreeType).glyphs[exampleConverter.glyphs.length + 0]?
              = some g
            ∧ Converter.renderGlyph 2 (exampleConverter.operator exampleFreeType).bitmap g 0 0 0
              = some ss
            ∧ ss.length = (exampleGlyph 66).bitmap.rows * (exampleGlyph 66).bitmap.width
            ∧ (∀ (sx sy : Nat), sx < (exampleGlyph 66).bitmap.width →
                sy < (exampleGlyph 66).bitmap.rows →
                ∃ s : Store, ss[sy * (exampleGlyph 66).bitmap.width + sx]? = some s
                  ∧ s.dx = 0 + (sx : Int) + (exampleGlyph 66).left
                  ∧ s.dy = 0 + (sy : Int) + (1 - (exampleGlyph 66).top)
                  ∧ s.pixel = previewValue 2 ((exampleGlyph 66).bitmap.byteAt
                      ((sy : Int) * (exampleGlyph 66).bitmap.pitch + (sx : Int)))
                  ∧ s.pixel < (exampleGlyph 66).bitmap.byteAt
                      ((sy : Int) * (exampleGlyph 66).bitmap.pitch + (sx : Int)) + 2 ^ (8 - 2)
                  ∧ (exampleGlyph 66).bitmap.byteAt
                      ((sy : Int) * (exampleGlyph 66).bitmap.pitch + (sx : Int))
                    < s.pixel + 2 ^ (8 - 2))) :=
  ⟨by decide, by decide, by decide, by decide,
    (quantise_error_bound 4 (by decide) 100 200 (by decide) (by decide) (by decide)).2.1,
    (quantise_error_bound 4 (by decide) 100 200 (by decide) (by decide) (by decide)).2.2.1,
    (quantise_error_bound 4 (by decide) 100 200 (by decide) (by decide) (by decide)).2.2.2.1,
    by decide, by decide,
    (quantise_error_bound 2 (by decide) 100 200 (by decide) (by decide) (by decide)).2.2.2.2.2.2.2
      exampleFreeType exampleConverter 0 (exampleGlyph 66) 0 0 0 rfl rfl rfl rfl⟩

/-- C20 (encoder state invariant): for every depth `d` in {1,2,4,8}, after `n` calls of
`encode` on a fresh `BitEncoder<d>` the cursor is `(n*d) mod 8`, hence below 8 and a
multiple of `d`; the next call raises it to at most 8, so its flush test `_shift >= 8`
holds exactly when the raised cursor equals 8; the number of bytes emitted is
`floor(n*d/8)`; and every bit of the pending buffer at or above the cursor is zero. -/
theorem encoder_state_invariant (d : Nat) (hd : ValidDepth d) (dst xs : List Nat) :
    (BitEncoder.encodeAll d (BitEncoder.new dst) xs).shift = xs.length * d % 8
      ∧ (BitEncoder.encodeAll d (BitEncoder.new dst) xs).shift < 8
      ∧ d ∣ (BitEncoder.encodeAll d (BitEncoder.new dst) xs).shift
      ∧ ((BitEncoder.encodeAll d (BitEncoder.new dst) xs).shift + d ≥ 8
          ↔ (BitEncoder.encodeAll d (BitEncoder.new dst) xs).shift + d = 8)
      ∧ (BitEncoder.encodeAll d (BitEncoder.new dst) xs).data.length
          = dst.length + xs.length * d / 8
      ∧ (BitEncoder.encodeAll d (BitEncoder.new dst) xs).buf
          < 2 ^ (BitEncoder.encodeAll d (BitEncoder.new dst) xs).shift
      ∧ (∀ i, (BitEncoder.encodeAll d (BitEncoder.new dst) xs).shift ≤ i →
          (BitEncoder.encodeAll d (BitEncoder.new dst) xs).buf.testBit i = false) := by
  obtain ⟨hshift, hlen, hbuf⟩ := encodeAll_state hd dst xs
  refine ⟨hshift, by omega, ?_, ?_, hlen, hbuf, ?_⟩
  · rw [hshift]
    rcases hd with h | h | h | h <;> subst h
    · exact Nat.one_dvd _
    · exact Nat.dvd_of_mod_eq_zero (by omega)
    · exact Nat.dvd_of_mod_eq_zero (by omega)
    · exact Nat.dvd_of_mod_eq_zero (by omega)
  · rw [hshift]
    rcases hd with h | h | h | h <;> subst h <;> omega
  · intro i hi
    exact Nat.testBit_lt_two_pow
      (lt_of_lt_of_le hbuf (Nat.pow_le_pow_right (by norm_num) hi))

theorem encoder_state_invariant_witness :
    ValidDepth 2
      ∧ (BitEncoder.encodeAll 2 (BitEncoder.new [9]) [3, 2, 1, 0, 1, 2]).shift
          = [3, 2, 1, 0, 1, 2].length * 2 % 8
      ∧ (BitEncoder.encodeAll 2 (BitEncoder.new [9]) [3, 2, 1, 0, 1, 2]).data.length
          = [9].length + [3, 2, 1, 0, 1, 2].length * 2 / 8 :=
  ⟨by decide, (encoder_state_invariant 2 (by decide) [9] [3, 2, 1, 0, 1, 2]).1,
    (encoder_state_invariant 2 (by decide) [9] [3, 2, 1, 0, 1, 2]).2.2.2.2.1⟩

end FontConvert
